import Mathlib

/-!
Verification of the timeline-evaluation engine and render-pipeline logic of the
video-editor server.

All numeric values are modelled as rationals (`ℚ`).  Source locations are cited
next to every definition; the definitions mirror the TypeScript control flow:
JavaScript `array.sort` with the comparator `(a, b) => a.time - b.time` is
modelled by a stable insertion sort on the `time` field, `for` loops over
consecutive keyframe pairs are modelled by structural recursion, and
`undefined` values are modelled by `Option`.
-/

namespace VideoEditor

/-- A speed keyframe (src/server/src/utils/time-engine.ts, lines 8-11):
`time` in clip-local seconds, `speed` factor. -/
structure SpeedKeyframe where
  time : ℚ
  speed : ℚ
deriving DecidableEq

instance : Inhabited SpeedKeyframe := ⟨⟨0, 0⟩⟩

/-- Comparator order used by `sort((a, b) => a.time - b.time)`. -/
def kfLE (a b : SpeedKeyframe) : Prop := a.time ≤ b.time

instance : DecidableRel kfLE := fun a b => inferInstanceAs (Decidable (a.time ≤ b.time))

instance : IsTotal SpeedKeyframe kfLE := ⟨fun a b => le_total a.time b.time⟩

instance : IsTrans SpeedKeyframe kfLE := ⟨fun _ _ _ h₁ h₂ => le_trans h₁ h₂⟩

/-- `[...keyframes].sort((a, b) => a.time - b.time)` (time-engine.ts line 38):
a stable sort by `time`. -/
def sortKfs (kfs : List SpeedKeyframe) : List SpeedKeyframe :=
  List.insertionSort kfLE kfs

/-- `getSourceTimeAtKeyframe` (time-engine.ts lines 82-99): accumulated source
time at keyframe `index` of the sorted list: trapezoid area of every prior
consecutive pair, plus the pre-first-keyframe contribution
`keyframes[0].time * keyframes[0].speed` when the list is non-empty. -/
def sourceTimeAtKeyframe (keyframes : List SpeedKeyframe) (index : ℕ) : ℚ :=
  (Finset.range index).sum (fun i =>
    let kf1 := keyframes.getD i default
    let kf2 := keyframes.getD (i + 1) default
    (kf2.time - kf1.time) * ((kf1.speed + kf2.speed) / 2))
  + (match keyframes with
     | [] => 0
     | k :: _ => k.time * k.speed)

/-- The `for` loop of `evaluateSpeedRamp` (time-engine.ts lines 54-74): scan
consecutive pairs of the sorted list (the suffix starting at position `i` of
`full`), returning the trapezoid value for the first bracketing pair, and the
fallback `clipLocalTime` when no pair brackets `t` (line 76). -/
def rampSeg (t : ℚ) (full : List SpeedKeyframe) : ℕ → List SpeedKeyframe → ℚ
  | i, kf1 :: kf2 :: rest =>
    if kf1.time ≤ t ∧ t ≤ kf2.time then
      let segmentProgress := (t - kf1.time) / (kf2.time - kf1.time)
      let speed := kf1.speed + (kf2.speed - kf1.speed) * segmentProgress
      let sourceTimeAtKf1 := sourceTimeAtKeyframe full i
      let avgSpeed := (kf1.speed + speed) / 2
      sourceTimeAtKf1 + (t - kf1.time) * avgSpeed
    else
      rampSeg t full (i + 1) (kf2 :: rest)
  | _, _ => t

/-- Body of `evaluateSpeedRamp` after the defensive sort (time-engine.ts
lines 40-76): the before-first, after-last and bracketing-loop branches over
the sorted list. -/
def evalRampSorted (clipLocalTime : ℚ) (sorted : List SpeedKeyframe) : ℚ :=
  let first := sorted.headD default
  let lastKf := sorted.getLastD default
  if clipLocalTime ≤ first.time then
    clipLocalTime * first.speed
  else if lastKf.time ≤ clipLocalTime then
    sourceTimeAtKeyframe sorted (sorted.length - 1)
      + (clipLocalTime - lastKf.time) * lastKf.speed
  else
    rampSeg clipLocalTime sorted 0 sorted

/-- `evaluateSpeedRamp` (time-engine.ts lines 29-77). -/
def evaluateSpeedRamp (clipLocalTime : ℚ) (keyframes : List SpeedKeyframe) : ℚ :=
  match keyframes with
  | [] => clipLocalTime
  | _ :: _ => evalRampSorted clipLocalTime (sortKfs keyframes)

/-- Restatement of the speed-ramp integral in the form the specification gives
it (spec 4.2): a single left-to-right pass holding the accumulated source time
`acc` at the current keyframe; each passed pair contributes its full trapezoid,
a bracketing pair contributes the trapezoid over the partial segment with the
linearly interpolated instantaneous speed, and past the last keyframe the last
speed extrapolates constantly. -/
def specGo (t : ℚ) : ℚ → SpeedKeyframe → List SpeedKeyframe → ℚ
  | acc, k, [] => acc + (t - k.time) * k.speed
  | acc, k1, k2 :: rest =>
    if t ≤ k2.time then
      let speedAtT := k1.speed + (k2.speed - k1.speed) * ((t - k1.time) / (k2.time - k1.time))
      acc + (t - k1.time) * ((k1.speed + speedAtT) / 2)
    else
      specGo t (acc + (k2.time - k1.time) * ((k1.speed + k2.speed) / 2)) k2 rest

/-- The specification's description of `evaluateSpeedRamp` (spec 4.2): empty
list is the identity; at or before the first keyframe the result is
`t * first.speed`; otherwise accumulate trapezoids starting from the
pre-first-keyframe contribution `first.time * first.speed`. -/
def specSpeedRamp (t : ℚ) (kfs : List SpeedKeyframe) : ℚ :=
  match sortKfs kfs with
  | [] => t
  | k :: rest =>
    if t ≤ k.time then t * k.speed
    else specGo t (k.time * k.speed) k rest

/-! ### Transform keyframes and interpolation -/

/-- A transform keyframe (time-engine.ts lines 13-20): every channel other
than `time` is optional (`undefined` is modelled as `none`). -/
structure TransformKeyframe where
  time : ℚ
  x : Option ℚ := none
  y : Option ℚ := none
  scale : Option ℚ := none
  rotation : Option ℚ := none
  opacity : Option ℚ := none
deriving DecidableEq

instance : Inhabited TransformKeyframe := ⟨{ time := 0 }⟩

/-- The optional channels of a `TransformKeyframe` (the values of
`keyof TransformKeyframe` that the callers pass). -/
inductive Channel
  | x
  | y
  | scale
  | rotation
  | opacity
deriving DecidableEq

/-- Dynamic field access `kf[property]`. -/
def TransformKeyframe.get (k : TransformKeyframe) : Channel → Option ℚ
  | .x => k.x
  | .y => k.y
  | .scale => k.scale
  | .rotation => k.rotation
  | .opacity => k.opacity

/-- Comparator order on transform keyframes used by
`sort((a, b) => a.time - b.time)`. -/
def tkLE (a b : TransformKeyframe) : Prop := a.time ≤ b.time

instance : DecidableRel tkLE := fun a b => inferInstanceAs (Decidable (a.time ≤ b.time))

instance : IsTotal TransformKeyframe tkLE := ⟨fun a b => le_total a.time b.time⟩

instance : IsTrans TransformKeyframe tkLE := ⟨fun _ _ _ h₁ h₂ => le_trans h₁ h₂⟩

/-- `[...keyframes].sort((a, b) => a.time - b.time)` (time-engine.ts line 111,
render-service.ts line 501). -/
def sortTKfs (kfs : List TransformKeyframe) : List TransformKeyframe :=
  List.insertionSort tkLE kfs

/-- The `for` loop of `interpolateKeyframes` (time-engine.ts lines 124-137):
on the first bracketing pair, return `undefined` when either endpoint omits
the channel, otherwise the linear interpolation; `undefined` when no pair
brackets (line 139). -/
def interpLoop (time : ℚ) (property : Channel) : List TransformKeyframe → Option ℚ
  | k1 :: k2 :: rest =>
    if k1.time ≤ time ∧ time ≤ k2.time then
      match k1.get property, k2.get property with
      | some val1, some val2 =>
        some (val1 + (val2 - val1) * ((time - k1.time) / (k2.time - k1.time)))
      | _, _ => none
    else interpLoop time property (k2 :: rest)
  | _ => none

/-- Body of `interpolateKeyframes` after the defensive sort (time-engine.ts
lines 113-139).  The JS code returns `sorted[0][property] as number`, which is
`undefined` when the channel is missing; we return the `Option` directly. -/
def interpSorted (time : ℚ) (property : Channel)
    (sorted : List TransformKeyframe) : Option ℚ :=
  if time ≤ (sorted.headD default).time then
    (sorted.headD default).get property
  else if (sorted.getLastD default).time ≤ time then
    (sorted.getLastD default).get property
  else
    interpLoop time property sorted

/-- `interpolateKeyframes` (time-engine.ts lines 104-140). -/
def interpolateKeyframes (time : ℚ) (keyframes : List TransformKeyframe)
    (property : Channel) : Option ℚ :=
  match keyframes with
  | [] => none
  | _ :: _ => interpSorted time property (sortTKfs keyframes)

/-- The `for` loop of `interpolateValue` (render-service.ts lines 506-515):
unlike `interpLoop`, a missing endpoint is replaced by `defaultVal` before
interpolating; falls through to `defaultVal` (line 517). -/
def valLoop (time : ℚ) (prop : Channel) (defaultVal : ℚ) :
    List TransformKeyframe → ℚ
  | k1 :: k2 :: rest =>
    if k1.time ≤ time ∧ time ≤ k2.time then
      let v1 := (k1.get prop).getD defaultVal
      let v2 := (k2.get prop).getD defaultVal
      v1 + (v2 - v1) * ((time - k1.time) / (k2.time - k1.time))
    else valLoop time prop defaultVal (k2 :: rest)
  | _ => defaultVal

/-- `interpolateValue` (render-service.ts lines 498-518). -/
def interpolateValue (keyframes : List TransformKeyframe) (prop : Channel)
    (time : ℚ) (defaultVal : ℚ) : ℚ :=
  match keyframes with
  | [] => defaultVal
  | _ :: _ =>
    let sorted := sortTKfs keyframes
    if time ≤ (sorted.headD default).time then
      ((sorted.headD default).get prop).getD defaultVal
    else if (sorted.getLastD default).time ≤ time then
      ((sorted.getLastD default).get prop).getD defaultVal
    else
      valLoop time prop defaultVal sorted

/-- The bracketing pair both interpolation loops search for (spec 4.1:
locate the bracketing pair `(k1, k2)` with `k1.time ≤ time ≤ k2.time`): the
first consecutive pair of the list bracketing `time`, scanned in order. -/
def findBracket (time : ℚ) : List TransformKeyframe →
    Option (TransformKeyframe × TransformKeyframe)
  | k1 :: k2 :: rest =>
    if k1.time ≤ time ∧ time ≤ k2.time then some (k1, k2)
    else findBracket time (k2 :: rest)
  | _ => none

/-! ### Timeline evaluation -/

/-- Clip record consumed by `evaluateTimeline` (time-engine.ts lines 168-176). -/
structure ClipData where
  id : String
  track : String
  assetId : String
  startTime : ℚ
  endTime : ℚ
  trimStart : ℚ
  speedKeyframes : List SpeedKeyframe
deriving DecidableEq

/-- Overlay record consumed by `evaluateTimeline` (time-engine.ts lines 178-189). -/
structure OverlayData where
  id : String
  type : String
  track : String
  startTime : ℚ
  endTime : ℚ
  content : String
  positionKeyframes : List TransformKeyframe
  scaleKeyframes : List TransformKeyframe
  rotationKeyframes : List TransformKeyframe
  opacityKeyframes : List TransformKeyframe
deriving DecidableEq

/-- One entry of `TimelineState.activeClips` (time-engine.ts lines 147-153). -/
structure ActiveClip where
  clipId : String
  track : String
  assetId : String
  sourceTime : ℚ
  clipLocalTime : ℚ
deriving DecidableEq

/-- The computed overlay transform (time-engine.ts lines 158-164). -/
structure OverlayTransform where
  x : ℚ
  y : ℚ
  scale : ℚ
  rotation : ℚ
  opacity : ℚ
deriving DecidableEq

/-- One entry of `TimelineState.activeOverlays` (time-engine.ts lines 154-165). -/
structure ActiveOverlay where
  overlayId : String
  type : String
  content : String
  transform : OverlayTransform
deriving DecidableEq

/-- `TimelineState` (time-engine.ts lines 145-166). -/
structure TimelineState where
  time : ℚ
  activeClips : List ActiveClip
  activeOverlays : List ActiveOverlay
deriving DecidableEq

/-- The `activeClips` entry pushed for an active clip
(time-engine.ts lines 208-217). -/
def clipEntry (time : ℚ) (clip : ClipData) : ActiveClip :=
  let clipLocalTime := time - clip.startTime
  let sourceTime := clip.trimStart + evaluateSpeedRamp clipLocalTime clip.speedKeyframes
  { clipId := clip.id
    track := clip.track
    assetId := clip.assetId
    sourceTime := sourceTime
    clipLocalTime := clipLocalTime }

/-- The `activeOverlays` entry pushed for an active overlay
(time-engine.ts lines 224-237), with the `?? 0` / `?? 1` channel defaults. -/
def overlayEntry (time : ℚ) (overlay : OverlayData) : ActiveOverlay :=
  let overlayLocalTime := time - overlay.startTime
  { overlayId := overlay.id
    type := overlay.type
    content := overlay.content
    transform :=
      { x := (interpolateKeyframes overlayLocalTime overlay.positionKeyframes .x).getD 0
        y := (interpolateKeyframes overlayLocalTime overlay.positionKeyframes .y).getD 0
        scale := (interpolateKeyframes overlayLocalTime overlay.scaleKeyframes .scale).getD 1
        rotation := (interpolateKeyframes overlayLocalTime overlay.rotationKeyframes .rotation).getD 0
        opacity := (interpolateKeyframes overlayLocalTime overlay.opacityKeyframes .opacity).getD 1 } }

/-- `evaluateTimeline` (time-engine.ts lines 194-242): the two `for` loops
pushing into `state.activeClips` / `state.activeOverlays` are modelled as
left folds appending to the accumulated list. -/
def evaluateTimeline (time : ℚ) (clips : List ClipData)
    (overlays : List OverlayData) : TimelineState :=
  let activeClips := clips.foldl (fun acc clip =>
    if clip.startTime ≤ time ∧ time < clip.endTime then
      acc ++ [clipEntry time clip]
    else acc) []
  let activeOverlays := overlays.foldl (fun acc overlay =>
    if overlay.startTime ≤ time ∧ time < overlay.endTime then
      acc ++ [overlayEntry time overlay]
    else acc) []
  { time := time, activeClips := activeClips, activeOverlays := activeOverlays }

/-! ### Render planner (segment decomposition) -/

/-- One segment produced by `renderSegmentedClip`
(render-service.ts lines 194-211). -/
structure RenderSegment where
  segStart : ℚ
  segDuration : ℚ
  sourceStart : ℚ
  speed : ℚ
deriving DecidableEq

/-- The `for` loop of `renderSegmentedClip` (render-service.ts lines 194-211):
for keyframe `i` the segment runs to keyframe `i+1`, or to the clip duration
for the last keyframe; zero/negative-duration segments are skipped
(`if (segDuration <= 0) continue`); the source start is
`clip.trimStart + evaluateSpeedRamp(segStart, sorted)` (line 203). -/
def planLoop (trimStart clipDuration : ℚ) (sorted : List SpeedKeyframe) :
    List SpeedKeyframe → List RenderSegment
  | [] => []
  | kf :: rest =>
    let segStart := kf.time
    let segEnd := match rest with
      | [] => clipDuration
      | next :: _ => next.time
    let segDuration := segEnd - segStart
    if segDuration ≤ 0 then planLoop trimStart clipDuration sorted rest
    else
      { segStart := segStart
        segDuration := segDuration
        sourceStart := trimStart + evaluateSpeedRamp segStart sorted
        speed := kf.speed } :: planLoop trimStart clipDuration sorted rest

/-- The segment plan of `renderSegmentedClip` (render-service.ts lines
186-227) together with the flag for `segments.length === 1` (line 213), in
which case the single segment is renamed to the output and concatenation is
skipped. -/
def renderSegmentedClipPlan (trimStart clipDuration : ℚ)
    (keyframes : List SpeedKeyframe) : List RenderSegment × Bool :=
  let sorted := sortKfs keyframes
  let segments := planLoop trimStart clipDuration sorted sorted
  (segments, segments.length == 1)

/-- The specification's description of the plan (spec 4.4): pair each sorted
keyframe with the next keyframe's time (the clip duration for the last),
keep the pairs of positive duration, and map each to a constant-speed segment
whose source start is the integral 4.2 evaluated at the segment's start. -/
def specPlanSegments (trimStart clipDuration : ℚ)
    (keyframes : List SpeedKeyframe) : List RenderSegment :=
  let sorted := sortKfs keyframes
  let bounds := (sorted.drop 1).map SpeedKeyframe.time ++ [clipDuration]
  (sorted.zip bounds).filterMap (fun p =>
    if 0 < p.2 - p.1.time then
      some { segStart := p.1.time
             segDuration := p.2 - p.1.time
             sourceStart := trimStart + evaluateSpeedRamp p.1.time sorted
             speed := p.1.speed }
    else none)

/-! ### Audio time-stretch chain -/

/-- `remaining.toFixed(4)` (render-service.ts line 275): rounding to four
decimal places, half away from zero for the positive values that occur here. -/
def round4 (q : ℚ) : ℚ := (⌊q * 10000 + 1 / 2⌋ : ℚ) / 10000

/-- `while (remaining > 2.0 + 0.001) { filters.push(atempo=2.0); remaining /= 2.0 }`
(render-service.ts line 271). -/
def atempoHalve (remaining : ℚ) : List ℚ × ℚ :=
  if h : 2 + 1 / 1000 < remaining then
    let p := atempoHalve (remaining / 2)
    (2 :: p.1, p.2)
  else ([], remaining)
termination_by (Int.ceil remaining).toNat
decreasing_by
  have h2 : (2 : ℚ) < remaining := by linarith
  have hle : remaining / 2 ≤ ((⌈remaining⌉ - 1 : ℤ) : ℚ) := by
    push_cast
    have := Int.le_ceil remaining
    linarith
  have hc : ⌈remaining / 2⌉ < ⌈remaining⌉ := by
    have := Int.ceil_le.2 hle
    omega
  have hpos : (0 : ℤ) < ⌈remaining⌉ := by
    have : (0 : ℚ) ≤ remaining := by linarith
    have := Int.le_ceil remaining
    by_contra hcon
    push_neg at hcon
    have : ((⌈remaining⌉ : ℤ) : ℚ) ≤ 0 := by exact_mod_cast hcon
    linarith
  simp only [Int.toNat_lt_toNat hpos]
  exact hc

/-- `while (remaining < 0.5 - 0.001) { filters.push(atempo=0.5); remaining /= 0.5 }`
(render-service.ts line 272).  For `remaining ≤ 0` the JS loop would not
terminate; the extra guard `0 < remaining` keeps the model total and is never
hit by the callers, whose argument is already clamped to at least `0.5`. -/
def atempoRaise (remaining : ℚ) : List ℚ × ℚ :=
  if h : remaining < 1 / 2 - 1 / 1000 ∧ 0 < remaining then
    let p := atempoRaise (remaining / (1 / 2))
    (1 / 2 :: p.1, p.2)
  else ([], remaining)
termination_by (Int.ceil (1 / remaining)).toNat
decreasing_by
  have hr : 0 < remaining := h.2
  have hlt : remaining < 1 / 2 := by linarith [h.1]
  have hx : (2 : ℚ) < 1 / remaining := by
    rw [lt_div_iff hr]
    linarith
  have hrw : 1 / (remaining / (1 / 2)) = (1 / remaining) / 2 := by
    field_simp
  rw [hrw]
  have hle : (1 / remaining) / 2 ≤ ((⌈(1 / remaining)⌉ - 1 : ℤ) : ℚ) := by
    push_cast
    have := Int.le_ceil (1 / remaining)
    linarith
  have hc : ⌈(1 / remaining) / 2⌉ < ⌈(1 / remaining)⌉ := by
    have := Int.ceil_le.2 hle
    omega
  have hpos : (0 : ℤ) < ⌈(1 / remaining)⌉ := by
    have := Int.le_ceil (1 / remaining)
    by_contra hcon
    push_neg at hcon
    have : ((⌈(1 / remaining)⌉ : ℤ) : ℚ) ≤ 0 := by exact_mod_cast hcon
    linarith
  simp only [Int.toNat_lt_toNat hpos]
  exact hc

/-- `buildAtempoChain` (render-service.ts lines 264-277): clamp the speed to
`[0.5, 8]`, halve while above `2.001`, raise while below `0.499`, then clamp
the remainder into `[0.5, 2]` and emit it rounded to four decimals. -/
def buildAtempoChain (speed : ℚ) : List ℚ :=
  let clampedSpeed := max (1 / 2) (min 8 speed)
  let high := atempoHalve clampedSpeed
  let low := atempoRaise high.2
  let remaining := max (1 / 2) (min 2 low.2)
  high.1 ++ low.1 ++ [round4 remaining]

/-- The dispatch of `renderSegment` (render-service.ts lines 229-262): a
segment with `speed < 0.01` becomes a freeze frame — one still frame extracted
at the source start, looped for the segment duration (lines 233-235 and
279-308) — otherwise an encode of `duration * speed` source seconds with the
`setpts` factor `1 / speed` and, when `speed !== 1`, the atempo chain. -/
inductive RenderAction
  | freeze (sourceStart duration : ℚ)
  | encode (sourceStart sourceDuration setptsFactor : ℚ) (audioChain : Option (List ℚ))
deriving DecidableEq

/-- `renderSegment` (render-service.ts lines 229-262) as the action it
performs. -/
def renderSegmentAction (sourceStart duration speed : ℚ) : RenderAction :=
  if speed < 1 / 100 then
    .freeze sourceStart duration
  else
    .encode sourceStart (duration * speed) (1 / speed)
      (if speed ≠ 1 then some (buildAtempoChain speed) else none)

/-! ### Export job store (src/unnamed/part_014, export-service) -/

/-- Export status values (QUEUED, RUNNING, COMPLETE, FAILED). -/
inductive JobStatus
  | QUEUED
  | RUNNING
  | COMPLETE
  | FAILED
deriving DecidableEq

/-- One export record as stored by the job store. -/
structure ExportJob where
  id : ℕ
  projectId : String
  status : JobStatus
  progress : ℚ
deriving DecidableEq

/-- `status: { in: [QUEUED, RUNNING] }` (part_014 lines 7-10). -/
def ExportJob.inFlight (j : ExportJob) : Bool :=
  j.status == .QUEUED || j.status == .RUNNING

/-- The persistent store visible to `createExportJob`: the export records (in
creation order, as scanned by `findFirst`), the id supply, and the render
queue entries added by `renderQueue.add`. -/
structure JobStore where
  jobs : List ExportJob
  nextId : ℕ
  pending : List (ℕ × String)
deriving DecidableEq

/-- The `findFirst` condition of `createExportJob` (part_014 lines 6-11):
same project and QUEUED/RUNNING status. -/
def inFlightFor (projectId : String) (j : ExportJob) : Bool :=
  j.projectId == projectId && j.inFlight

/-- `createExportJob` (part_014 lines 4-33): return the first QUEUED/RUNNING
export of the project unchanged if one exists, otherwise create a fresh
QUEUED record with progress 0 and enqueue it. -/
def createExportJob (projectId : String) (store : JobStore) :
    ExportJob × JobStore :=
  match store.jobs.find? (inFlightFor projectId) with
  | some existing => (existing, store)
  | none =>
    let record : ExportJob :=
      { id := store.nextId, projectId := projectId, status := .QUEUED, progress := 0 }
    (record,
      { jobs := store.jobs ++ [record]
        nextId := store.nextId + 1
        pending := store.pending ++ [(record.id, projectId)] })

/-- `prisma.export.update` restricted to a status change (as performed by
`completeExport` / `failExport`, part_014 lines 55-74). -/
def setJobStatus (store : JobStore) (jobId : ℕ) (status : JobStatus) : JobStore :=
  { store with
    jobs := store.jobs.map (fun j => if j.id == jobId then { j with status := status } else j) }

/-- Ids are unique and below the id supply. -/
def JobStore.wf (store : JobStore) : Prop :=
  (∀ j ∈ store.jobs, j.id < store.nextId) ∧
    (store.jobs.map ExportJob.id).Nodup

/-- At most one QUEUED/RUNNING export exists for `projectId`. -/
def atMostOneInFlight (store : JobStore) (projectId : String) : Prop :=
  (store.jobs.filter (inFlightFor projectId)).length ≤ 1

/-! ### Export progress trace (render worker, src/unnamed/part_013) -/

/-- One write to the export record, as issued by the export-service helpers:
`updateExportProgress(id, p)`, `updateExportProgress(id, p, status)`,
`completeExport(id, out)` (status COMPLETE, progress 100, output recorded) and
`failExport(id, msg)` (status FAILED, message recorded, progress untouched)
(part_014 lines 41-74). -/
inductive JobWrite
  | progressOnly (p : ℚ)
  | progressStatus (p : ℚ) (s : JobStatus)
  | complete (outputPath : String)
  | fail (msg : String)
deriving DecidableEq

/-- The progress value carried by a write, if any. -/
def JobWrite.progressValue : JobWrite → Option ℚ
  | .progressOnly p => some p
  | .progressStatus p _ => some p
  | .complete _ => some 100
  | .fail _ => none

/-- The mutable fields of one export record during a render run. -/
structure JobRecord where
  status : JobStatus
  progress : ℚ
  outputPath : Option String
  errorMessage : Option String
deriving DecidableEq

/-- Applying one write to the record (part_014 lines 41-74). -/
def applyWrite (j : JobRecord) : JobWrite → JobRecord
  | .progressOnly p => { j with progress := p }
  | .progressStatus p s => { j with progress := p, status := s }
  | .complete out =>
    { j with status := .COMPLETE, progress := 100, outputPath := some out }
  | .fail m => { j with status := .FAILED, errorMessage := some m }

/-- The record as created by `createExportJob`: QUEUED at progress 0. -/
def initialJobRecord : JobRecord :=
  { status := .QUEUED, progress := 0, outputPath := none, errorMessage := none }

/-- The progress milestones written by `renderProject`
(render-service.ts lines 49, 59, 86, 97, 106, 115, 123): `5` comes with the
RUNNING status, the rest are plain progress updates. -/
def renderMilestones : List JobWrite :=
  [.progressStatus 5 .RUNNING, .progressOnly 10, .progressOnly 30,
   .progressOnly 50, .progressOnly 70, .progressOnly 85, .progressOnly 95]

/-- The writes issued for one job by the render worker (part_013 lines
16-35): first `updateExportProgress(id, 0, RUNNING)`, then `renderProject`'s
milestone writes, then `completeExport` on success.  `failAfter = some k`
models `renderProject` throwing after its first `k` milestone writes
(`0 ≤ k ≤ 7`); the worker catches and issues `failExport`. -/
def workerTrace (failAfter : Option ℕ) (out msg : String) : List JobWrite :=
  match failAfter with
  | none => .progressStatus 0 .RUNNING :: renderMilestones ++ [.complete out]
  | some k => .progressStatus 0 .RUNNING :: renderMilestones.take k ++ [.fail msg]

/-- The successive record states while a trace is applied (initial state
included). -/
def traceStates (writes : List JobWrite) : List JobRecord :=
  writes.scanl applyWrite initialJobRecord

/-! ### Render-pipeline file bookkeeping (render-service.ts) -/

/-- Disk state for the render model: the files currently on disk and a supply
of fresh names (`uuidv4` names are modelled by a counter). -/
structure FsState where
  existing : List ℕ
  counter : ℕ
deriving DecidableEq

/-- `getExportPath(..uuidv4()..)`: a fresh path, not yet a file. -/
def allocName (fs : FsState) : ℕ × FsState :=
  (fs.counter, { fs with counter := fs.counter + 1 })

/-- A successful external invocation (or `copyFileSync`) writing `n`. -/
def createFile (n : ℕ) (fs : FsState) : FsState :=
  { fs with existing := fs.existing ++ [n] }

/-- `fs.unlinkSync(n)`. -/
def deleteFile (n : ℕ) (fs : FsState) : FsState :=
  { fs with existing := fs.existing.filter (fun m => m ≠ n) }

/-- `fs.existsSync(n)`. -/
def fileExists (n : ℕ) (fs : FsState) : Bool :=
  fs.existing.contains n

/-- `renderClipWithSpeedRamp` for a clip without speed keyframes
(render-service.ts lines 156-167): allocate `clip_<uuid>.mp4` and render the
simple clip into it (lines 169-184). -/
def renderClipNoKfFs (fs : FsState) : ℕ × FsState :=
  let a := allocName fs
  (a.1, createFile a.1 a.2)

/-- The loop of `renderTrackClips` (lines 143-147): render each clip, pushing
every rendered file onto `tempFiles`. -/
def renderClipsLoopFs : ℕ → List ℕ → FsState → List ℕ × List ℕ × FsState
  | 0, tempFiles, fs => ([], tempFiles, fs)
  | n + 1, tempFiles, fs =>
    let c := renderClipNoKfFs fs
    let rest := renderClipsLoopFs n (tempFiles ++ [c.1]) c.2
    (c.1 :: rest.1, rest.2.1, rest.2.2)

/-- `concatenateFiles` (lines 770-797): write the list file, produce the
output, delete the list file. -/
def concatenateFilesFs (output : ℕ) (fs : FsState) : FsState :=
  let lf := allocName fs
  let fs1 := createFile lf.1 lf.2
  let fs2 := createFile output fs1
  deleteFile lf.1 fs2

/-- `renderTrackClips` (lines 140-154): a single rendered clip is returned
directly, otherwise the renders are concatenated into `track_<uuid>.mp4`. -/
def renderTrackClipsFs (clipCount : ℕ) (tempFiles : List ℕ) (fs : FsState) :
    ℕ × List ℕ × FsState :=
  let r := renderClipsLoopFs clipCount tempFiles fs
  match r.1 with
  | [single] => (single, r.2.1, r.2.2)
  | _ =>
    let o := allocName r.2.2
    (o.1, r.2.1, concatenateFilesFs o.1 o.2)

/-- The loop of `applyImageOverlays` (lines 544-623): each overlay renders a
fresh `img_overlay_<uuid>.mp4` from the current video and replaces it as the
current video; none of these files is recorded in `tempFiles`
(the function does not receive the array at all). -/
def applyImageOverlaysFs : ℕ → ℕ → FsState → ℕ × FsState
  | 0, currentVideo, fs => (currentVideo, fs)
  | n + 1, _currentVideo, fs =>
    let o := allocName fs
    let fs1 := createFile o.1 o.2
    applyImageOverlaysFs n o.1 fs1

/-- The `finally` cleanup of `renderProject` (lines 127-133): delete every
tracked temp file that still exists and is not the output. -/
def cleanupFs (tempFiles : List ℕ) (outputPath : ℕ) (fs : FsState) : FsState :=
  tempFiles.foldl (fun acc f =>
    if fileExists f acc ∧ f ≠ outputPath then deleteFile f acc else acc) fs

/-- `renderProject` (lines 32-134) specialised to its success path for a
project with `clipCount ≥ 1` clips on track A (none with speed keyframes), no
track-B clips, no text overlays, `imageOverlayCount` image overlays whose
assets exist (static branch), no audio clips, and no padding needed: allocate
the output name, render track A (pushing the result onto `tempFiles`, line
63), apply the image overlays (pushing only the returned file, line 110),
copy the final video to the output (line 124), then run the cleanup. -/
def renderProjectFs (clipCount imageOverlayCount : ℕ) (fs0 : FsState) :
    ℕ × FsState :=
  let o := allocName fs0
  let outputPath := o.1
  let tr := renderTrackClipsFs clipCount [] o.2
  let baseVideo := tr.1
  let tempFiles1 := tr.2.1 ++ [baseVideo]
  let img := if imageOverlayCount > 0
    then applyImageOverlaysFs imageOverlayCount baseVideo tr.2.2
    else (baseVideo, tr.2.2)
  let tempFiles2 := if imageOverlayCount > 0 then tempFiles1 ++ [img.1] else tempFiles1
  let fsFinal := createFile outputPath img.2
  (outputPath, cleanupFs tempFiles2 outputPath fsFinal)

/-! ### Mutation model for the defensive-copy claim -/

/-- A JavaScript array as seen through one reference: the caller's view of a
possibly shared object. -/
structure JsArray (α : Type) where
  contents : List α
deriving DecidableEq

/-- `[...arr]`: a new array holding the same elements in the same order. -/
def jsSpreadCopy {α : Type} (a : JsArray α) : JsArray α := ⟨a.contents⟩

/-- `arr.sort((a, b) => a.time - b.time)` on speed keyframes: sorts the array
it is invoked on (in place) and returns that array. -/
def jsSortKfs (a : JsArray SpeedKeyframe) : JsArray SpeedKeyframe :=
  ⟨sortKfs a.contents⟩

/-- `arr.sort((a, b) => a.time - b.time)` on transform keyframes. -/
def jsSortTKfs (a : JsArray TransformKeyframe) : JsArray TransformKeyframe :=
  ⟨sortTKfs a.contents⟩

/-- `evaluateSpeedRamp` with the caller's array made explicit: the result and
the caller's array as it stands after the call.  Line 38 sorts the spread
copy (`[...keyframes].sort(...)`), not the caller's array, so the returned
array is the unmodified argument while the value is computed from the sorted
copy. -/
def evaluateSpeedRampMut (t : ℚ) (keyframes : JsArray SpeedKeyframe) :
    ℚ × JsArray SpeedKeyframe :=
  match keyframes.contents with
  | [] => (t, keyframes)
  | _ :: _ =>
    let sorted := jsSortKfs (jsSpreadCopy keyframes)
    (evalRampSorted t sorted.contents, keyframes)

/-- `interpolateKeyframes` with the caller's array made explicit
(time-engine.ts line 111 sorts the spread copy). -/
def interpolateKeyframesMut (time : ℚ) (keyframes : JsArray TransformKeyframe)
    (property : Channel) : Option ℚ × JsArray TransformKeyframe :=
  match keyframes.contents with
  | [] => (none, keyframes)
  | _ :: _ =>
    let sorted := jsSortTKfs (jsSpreadCopy keyframes)
    (interpSorted time property sorted.contents, keyframes)

/-! ### Lemmas about the defensive sort -/

theorem sortKfs_sorted (l : List SpeedKeyframe) : List.Sorted kfLE (sortKfs l) :=
  List.sorted_insertionSort kfLE l

theorem sortKfs_perm (l : List SpeedKeyframe) : List.Perm (sortKfs l) l :=
  List.perm_insertionSort kfLE l

theorem sortKfs_nil_iff {l : List SpeedKeyframe} : sortKfs l = [] ↔ l = [] := by
  constructor
  · intro h
    have := (sortKfs_perm l).length_eq
    rw [h] at this
    exact List.length_eq_zero.mp this.symm
  · intro h; subst h; rfl

theorem mem_sortKfs {l : List SpeedKeyframe} {x : SpeedKeyframe} :
    x ∈ sortKfs l ↔ x ∈ l :=
  (sortKfs_perm l).mem_iff

/-! ### Indexing helpers -/

theorem getD_of_get? {s : List SpeedKeyframe} {i : ℕ} {k : SpeedKeyframe}
    (h : s.get? i = some k) : s.getD i default = k := by
  have : s.getD i default = (s.get? i).getD default := rfl
  rw [this, h]; rfl

theorem get?_of_drop {s : List SpeedKeyframe} {j : ℕ} {k : SpeedKeyframe}
    {rest : List SpeedKeyframe} (h : s.drop j = k :: rest) : s.get? j = some k := by
  have h0 : (s.drop j).get? 0 = some k := by rw [h]; rfl
  rwa [List.get?_drop, Nat.add_zero] at h0

theorem get?_succ_of_drop {s : List SpeedKeyframe} {j : ℕ} {k1 k2 : SpeedKeyframe}
    {rest : List SpeedKeyframe} (h : s.drop j = k1 :: k2 :: rest) :
    s.get? (j + 1) = some k2 := by
  have h0 : (s.drop j).get? 1 = some k2 := by rw [h]; rfl
  rwa [List.get?_drop] at h0

theorem drop_succ_of_drop {s : List SpeedKeyframe} {j : ℕ} {k : SpeedKeyframe}
    {rest : List SpeedKeyframe} (h : s.drop j = k :: rest) :
    s.drop (j + 1) = rest := by
  have : s.drop (j + 1) = (s.drop j).drop 1 := by
    rw [List.drop_drop, Nat.add_comm]
  rw [this, h]; rfl

theorem getLastD_of_drop {s : List SpeedKeyframe} {j : ℕ} {k : SpeedKeyframe}
    {rest : List SpeedKeyframe} (h : s.drop j = k :: rest) :
    s.getLastD default = (k :: rest).getLastD default := by
  induction j generalizing s with
  | zero => simp at h; rw [h]
  | succ j ih =>
    cases s with
    | nil => simp at h
    | cons a s' =>
      have h' : s'.drop j = k :: rest := h
      have hs' : s' ≠ [] := by
        intro hnil
        rw [hnil, List.drop_nil] at h'
        exact List.noConfusion h'
      calc (a :: s').getLastD default = s'.getLastD default := by
            cases s' with
            | nil => exact absurd rfl hs'
            | cons b s'' => rfl
        _ = (k :: rest).getLastD default := ih h'

/-! ### Accumulated source time -/

theorem sourceTimeAt_succ {s : List SpeedKeyframe} {j : ℕ} {k1 k2 : SpeedKeyframe}
    {rest : List SpeedKeyframe} (h : s.drop j = k1 :: k2 :: rest) :
    sourceTimeAtKeyframe s (j + 1)
      = sourceTimeAtKeyframe s j + (k2.time - k1.time) * ((k1.speed + k2.speed) / 2) := by
  have h1 : s.getD j default = k1 := getD_of_get? (get?_of_drop h)
  have h2 : s.getD (j + 1) default = k2 := getD_of_get? (get?_succ_of_drop h)
  unfold sourceTimeAtKeyframe
  rw [Finset.sum_range_succ]
  simp only [h1, h2]
  ring

theorem sourceTimeAt_zero {k : SpeedKeyframe} {rest : List SpeedKeyframe} :
    sourceTimeAtKeyframe (k :: rest) 0 = k.time * k.speed := by
  unfold sourceTimeAtKeyframe
  simp

theorem sourceTimeAt_succ' {s : List SpeedKeyframe} {j : ℕ} {k1 k2 : SpeedKeyframe}
    (h1 : s.get? j = some k1) (h2 : s.get? (j + 1) = some k2) :
    sourceTimeAtKeyframe s (j + 1)
      = sourceTimeAtKeyframe s j + (k2.time - k1.time) * ((k1.speed + k2.speed) / 2) := by
  unfold sourceTimeAtKeyframe
  rw [Finset.sum_range_succ]
  simp only [getD_of_get? h1, getD_of_get? h2]
  ring

/-- On a suffix whose keyframes all share one time, the accumulated source time
does not change (all trapezoids there have zero width). -/
theorem sourceTimeAt_stable {s : List SpeedKeyframe} {j : ℕ} {c : ℚ}
    (hc : ∀ x ∈ s.drop j, x.time = c) :
    ∀ d, j + d < s.length → sourceTimeAtKeyframe s (j + d) = sourceTimeAtKeyframe s j := by
  intro d
  induction d with
  | zero => intro _; rfl
  | succ d ih =>
    intro hlen
    have hd : j + d < s.length := by omega
    have hd1 : j + d + 1 < s.length := by omega
    obtain ⟨k1, h1⟩ : ∃ k1, s.get? (j + d) = some k1 :=
      ⟨s.get ⟨j + d, hd⟩, List.get?_eq_get hd⟩
    obtain ⟨k2, h2⟩ : ∃ k2, s.get? (j + d + 1) = some k2 :=
      ⟨s.get ⟨j + d + 1, hd1⟩, List.get?_eq_get hd1⟩
    have hm1 : k1 ∈ s.drop j := by
      have : (s.drop j).get? d = some k1 := by rw [List.get?_drop]; exact h1
      exact List.get?_mem this
    have hm2 : k2 ∈ s.drop j := by
      have : (s.drop j).get? (d + 1) = some k2 := by
        rw [List.get?_drop]
        rw [show j + (d + 1) = j + d + 1 from rfl]
        exact h2
      exact List.get?_mem this
    have : sourceTimeAtKeyframe s (j + d + 1)
        = sourceTimeAtKeyframe s (j + d) + (k2.time - k1.time) * ((k1.speed + k2.speed) / 2) :=
      sourceTimeAt_succ' h1 h2
    rw [show j + (d + 1) = j + d + 1 from rfl, this, hc k1 hm1, hc k2 hm2, ih hd]
    ring

/-- In a sorted keyframe list every time is at most the last time. -/
theorem time_le_getLastD {s : List SpeedKeyframe} (hs : List.Sorted kfLE s) :
    ∀ x ∈ s, x.time ≤ (s.getLastD default).time := by
  induction s with
  | nil => intro x hx; cases hx
  | cons a s' ih =>
    intro x hx
    cases s' with
    | nil =>
      rcases List.mem_singleton.mp hx with rfl
      exact le_refl _
    | cons b s'' =>
      have hstep : ((a :: b :: s'').getLastD default) = ((b :: s'').getLastD default) := rfl
      rw [hstep]
      have hs' : List.Sorted kfLE (b :: s'') := hs.of_cons
      rcases List.mem_cons.mp hx with rfl | hx'
      · have hab : kfLE x b := (List.pairwise_cons.mp hs).1 b (List.mem_cons_self _ _)
        exact le_trans hab (ih hs' b (List.mem_cons_self _ _))
      · exact ih hs' x hx'

/-- Bridge between the specification's accumulator pass (`specGo`) and the
code's after-last branch / bracketing loop (`rampSeg`), on the sorted list. -/
theorem specGo_eq_code {t : ℚ} {s : List SpeedKeyframe} (hs : List.Sorted kfLE s) :
    ∀ {rest : List SpeedKeyframe} {j : ℕ} {k1 : SpeedKeyframe},
      s.drop j = k1 :: rest → k1.time < t →
      specGo t (sourceTimeAtKeyframe s j) k1 rest
        = if (s.getLastD default).time ≤ t then
            sourceTimeAtKeyframe s (s.length - 1)
              + (t - (s.getLastD default).time) * (s.getLastD default).speed
          else rampSeg t s j (k1 :: rest) := by
  intro rest
  induction rest with
  | nil =>
    intro j k1 hdrop hk1
    have hlast : s.getLastD default = k1 := by
      rw [getLastD_of_drop hdrop]; rfl
    have hjlen : s.length - j = 1 := by
      have := congrArg List.length hdrop
      rw [List.length_drop] at this
      simpa using this
    have hjlt : j < s.length := by omega
    have hj : j = s.length - 1 := by omega
    rw [hlast, if_pos (le_of_lt hk1), ← hj]
    simp [specGo]
  | cons k2 rest' ih =>
    intro j k1 hdrop hk1
    have hdrop' : s.drop (j + 1) = k2 :: rest' := drop_succ_of_drop hdrop
    have hsucc : sourceTimeAtKeyframe s (j + 1)
        = sourceTimeAtKeyframe s j + (k2.time - k1.time) * ((k1.speed + k2.speed) / 2) :=
      sourceTimeAt_succ hdrop
    have hk2mem : k2 ∈ s := by
      have : k2 ∈ s.drop (j + 1) := by rw [hdrop']; exact List.mem_cons_self _ _
      exact List.mem_of_mem_drop this
    by_cases h2 : t ≤ k2.time
    · -- the current pair brackets t
      by_cases hlast : (s.getLastD default).time ≤ t
      · -- only possible when every time from k2 on equals t
        have hk2t : k2.time = t :=
          le_antisymm (le_trans (time_le_getLastD hs k2 hk2mem) hlast) h2
        have hconst : ∀ x ∈ s.drop (j + 1), x.time = t := by
          intro x hx
          have hsx : List.Sorted kfLE (k2 :: rest') := by
            rw [← hdrop']
            exact hs.sublist (List.drop_sublist _ _)
          have hxmem : x ∈ s := List.mem_of_mem_drop hx
          have hup : x.time ≤ t := le_trans (time_le_getLastD hs x hxmem) hlast
          rw [hdrop'] at hx
          rcases List.mem_cons.mp hx with rfl | hx'
          · exact hk2t
          · have hlow : k2.time ≤ x.time := (List.pairwise_cons.mp hsx).1 x hx'
            exact le_antisymm hup (hk2t ▸ hlow)
        have hlastt : (s.getLastD default).time = t :=
          le_antisymm hlast (hk2t ▸ time_le_getLastD hs k2 hk2mem)
        have hj1lt : j + 1 < s.length := by
          have := congrArg List.length hdrop'
          rw [List.length_drop] at this
          simp only [List.length_cons] at this
          omega
        have hstab : sourceTimeAtKeyframe s (s.length - 1) = sourceTimeAtKeyframe s (j + 1) := by
          have hd : (j + 1) + (s.length - 1 - (j + 1)) = s.length - 1 := by omega
          have := sourceTimeAt_stable hconst (s.length - 1 - (j + 1)) (by omega)
          rwa [hd] at this
        have hne : t - k1.time ≠ 0 := ne_of_gt (sub_pos.2 hk1)
        rw [if_pos hlast]
        simp only [specGo, if_pos h2]
        rw [hstab, hsucc, hlastt, hk2t, div_self hne]
        ring
      · -- the code loop finds this bracketing pair first
        rw [if_neg hlast]
        simp only [specGo, rampSeg, if_pos h2, if_pos (And.intro (le_of_lt hk1) h2)]
    · -- move on to the next pair
      have hk2 : k2.time < t := lt_of_not_le h2
      have hrec : specGo t (sourceTimeAtKeyframe s j) k1 (k2 :: rest')
          = specGo t (sourceTimeAtKeyframe s (j + 1)) k2 rest' := by
        rw [hsucc]
        simp only [specGo, if_neg h2]
      rw [hrec, ih hdrop' hk2]
      by_cases hlast : (s.getLastD default).time ≤ t
      · rw [if_pos hlast, if_pos hlast]
      · rw [if_neg hlast, if_neg hlast]
        have : rampSeg t s j (k1 :: k2 :: rest')
            = rampSeg t s (j + 1) (k2 :: rest') := by
          simp only [rampSeg]
          rw [if_neg]
          intro hand
          exact h2 hand.2
        rw [this]

/-- The code's `evaluateSpeedRamp` computes exactly the specification's
accumulated trapezoidal integral, on every input. -/
theorem evaluateSpeedRamp_eq_specSpeedRamp (t : ℚ) (kfs : List SpeedKeyframe) :
    evaluateSpeedRamp t kfs = specSpeedRamp t kfs := by
  cases kfs with
  | nil => rfl
  | cons a l =>
    obtain ⟨k, rest, hs⟩ : ∃ k rest, sortKfs (a :: l) = k :: rest := by
      cases hsk : sortKfs (a :: l) with
      | nil => exact absurd (sortKfs_nil_iff.mp hsk) (List.cons_ne_nil a l)
      | cons k rest => exact ⟨k, rest, rfl⟩
    simp only [evaluateSpeedRamp, specSpeedRamp, evalRampSorted]
    rw [hs]
    simp only [List.headD_cons]
    by_cases h1 : t ≤ k.time
    · rw [if_pos h1, if_pos h1]
    · have hk1 : k.time < t := lt_of_not_le h1
      have hsorted : List.Sorted kfLE (k :: rest) := by
        rw [← hs]; exact sortKfs_sorted _
      have hbridge := @specGo_eq_code t (k :: rest) hsorted rest 0 k rfl hk1
      rw [sourceTimeAt_zero] at hbridge
      rw [if_neg h1, if_neg h1]
      exact hbridge.symm

/-! ### Monotonicity of the speed-ramp integral for non-negative speeds -/

/-- Core polynomial fact: `r ↦ r * (2 s1 + (s2 - s1) r)` (twice the partial
trapezoid area as a function of segment progress `r`) is monotone on `[0, 1]`
when both endpoint speeds are non-negative. -/
theorem trap_poly_mono {s1 s2 r1 r2 : ℚ} (hs1 : 0 ≤ s1) (hs2 : 0 ≤ s2)
    (h0 : 0 ≤ r1) (h12 : r1 ≤ r2) (h1 : r2 ≤ 1) :
    r1 * (s1 + (s1 + (s2 - s1) * r1)) ≤ r2 * (s1 + (s1 + (s2 - s1) * r2)) := by
  rcases le_total s1 s2 with h | h
  · nlinarith [mul_nonneg (sub_nonneg.2 h12) hs1,
      mul_nonneg (mul_nonneg (sub_nonneg.2 h12) (sub_nonneg.2 h))
        (add_nonneg h0 (le_trans h0 h12))]
  · nlinarith [mul_nonneg (sub_nonneg.2 h12) hs2,
      mul_nonneg (mul_nonneg (sub_nonneg.2 h12) (sub_nonneg.2 h))
        (by linarith : (0 : ℚ) ≤ 2 - r1 - r2)]

/-- Rewriting the partial-trapezoid term through the segment progress ratio. -/
theorem segTerm_rewrite {t a b s1 s2 : ℚ} (hne : b - a ≠ 0) :
    (t - a) * ((s1 + (s1 + (s2 - s1) * ((t - a) / (b - a)))) / 2)
      = ((b - a) / 2)
        * (((t - a) / (b - a)) * (s1 + (s1 + (s2 - s1) * ((t - a) / (b - a))))) := by
  field_simp
  ring

/-- The accumulator pass never returns less than its accumulator when all
speeds are non-negative and the query time is at or past the current keyframe. -/
theorem specGo_ge_acc {t : ℚ} {k : SpeedKeyframe} {rest : List SpeedKeyframe}
    (hs : List.Sorted kfLE (k :: rest)) (hsp : ∀ x ∈ k :: rest, 0 ≤ x.speed)
    (ht : k.time ≤ t) : ∀ acc, acc ≤ specGo t acc k rest := by
  induction rest generalizing k with
  | nil =>
    intro acc
    simp only [specGo]
    have := mul_nonneg (sub_nonneg.2 ht) (hsp k (List.mem_cons_self _ _))
    linarith
  | cons k2 rest' ih =>
    intro acc
    have hs1 : 0 ≤ k.speed := hsp k (List.mem_cons_self _ _)
    have hs2 : 0 ≤ k2.speed := hsp k2 (List.mem_cons_of_mem _ (List.mem_cons_self _ _))
    have hk12 : k.time ≤ k2.time :=
      (List.pairwise_cons.mp hs).1 k2 (List.mem_cons_self _ _)
    simp only [specGo]
    by_cases h2 : t ≤ k2.time
    · rw [if_pos h2]
      rcases eq_or_lt_of_le hk12 with hΔ0 | hΔpos
      · have ht' : t = k.time := le_antisymm (hΔ0 ▸ h2) ht
        rw [ht']
        simp
      · have hne : k2.time - k.time ≠ 0 := ne_of_gt (sub_pos.2 hΔpos)
        rw [segTerm_rewrite hne]
        have hr0 : 0 ≤ (t - k.time) / (k2.time - k.time) :=
          div_nonneg (sub_nonneg.2 ht) (le_of_lt (sub_pos.2 hΔpos))
        have hr1 : (t - k.time) / (k2.time - k.time) ≤ 1 :=
          (div_le_one (sub_pos.2 hΔpos)).2 (by linarith)
        have hpoly := trap_poly_mono hs1 hs2 (le_refl 0) hr0 hr1
        simp only [zero_mul] at hpoly
        have := mul_le_mul_of_nonneg_left hpoly
          (by linarith : (0 : ℚ) ≤ (k2.time - k.time) / 2)
        simp only [mul_zero] at this
        linarith
    · rw [if_neg h2]
      have hstep : acc ≤ acc + (k2.time - k.time) * ((k.speed + k2.speed) / 2) := by
        have := mul_nonneg (sub_nonneg.2 hk12) (by linarith : (0 : ℚ) ≤ (k.speed + k2.speed) / 2)
        linarith
      exact le_trans hstep
        (ih hs.of_cons (fun x hx => hsp x (List.mem_cons_of_mem _ hx))
          (le_of_lt (lt_of_not_le h2)) _)

/-- The accumulator pass is monotone in the query time when all speeds are
non-negative. -/
theorem specGo_mono {t1 t2 : ℚ} {k : SpeedKeyframe} {rest : List SpeedKeyframe}
    (hs : List.Sorted kfLE (k :: rest)) (hsp : ∀ x ∈ k :: rest, 0 ≤ x.speed)
    (ht : k.time ≤ t1) (h12 : t1 ≤ t2) :
    ∀ acc, specGo t1 acc k rest ≤ specGo t2 acc k rest := by
  induction rest generalizing k with
  | nil =>
    intro acc
    simp only [specGo]
    have := mul_le_mul_of_nonneg_right (sub_le_sub_right h12 k.time)
      (hsp k (List.mem_cons_self _ _))
    linarith
  | cons k2 rest' ih =>
    intro acc
    have hs1 : 0 ≤ k.speed := hsp k (List.mem_cons_self _ _)
    have hs2 : 0 ≤ k2.speed := hsp k2 (List.mem_cons_of_mem _ (List.mem_cons_self _ _))
    have hk12 : k.time ≤ k2.time :=
      (List.pairwise_cons.mp hs).1 k2 (List.mem_cons_self _ _)
    have hsp' : ∀ x ∈ k2 :: rest', 0 ≤ x.speed :=
      fun x hx => hsp x (List.mem_cons_of_mem _ hx)
    simp only [specGo]
    by_cases h2a : t1 ≤ k2.time
    · by_cases h2b : t2 ≤ k2.time
      · rw [if_pos h2a, if_pos h2b]
        rcases eq_or_lt_of_le hk12 with hΔ0 | hΔpos
        · have ht1 : t1 = k.time := le_antisymm (hΔ0 ▸ h2a) ht
          have ht2 : t2 = k.time := le_antisymm (hΔ0 ▸ h2b) (le_trans ht h12)
          rw [ht1, ht2]
        · have hΔp : (0 : ℚ) < k2.time - k.time := sub_pos.2 hΔpos
          have hne : k2.time - k.time ≠ 0 := ne_of_gt hΔp
          rw [segTerm_rewrite hne, segTerm_rewrite hne]
          have hr0 : 0 ≤ (t1 - k.time) / (k2.time - k.time) :=
            div_nonneg (sub_nonneg.2 ht) (le_of_lt hΔp)
          have hrr : (t1 - k.time) / (k2.time - k.time)
              ≤ (t2 - k.time) / (k2.time - k.time) :=
            (div_le_div_right hΔp).2 (by linarith)
          have hr1 : (t2 - k.time) / (k2.time - k.time) ≤ 1 :=
            (div_le_one hΔp).2 (by linarith)
          have hpoly := trap_poly_mono hs1 hs2 hr0 hrr hr1
          have := mul_le_mul_of_nonneg_left hpoly
            (by linarith : (0 : ℚ) ≤ (k2.time - k.time) / 2)
          linarith
      · rw [if_pos h2a, if_neg h2b]
        have hfull : (t1 - k.time) * ((k.speed + (k.speed + (k2.speed - k.speed)
              * ((t1 - k.time) / (k2.time - k.time)))) / 2)
            ≤ (k2.time - k.time) * ((k.speed + k2.speed) / 2) := by
          rcases eq_or_lt_of_le hk12 with hΔ0 | hΔpos
          · have ht1 : t1 = k.time := le_antisymm (hΔ0 ▸ h2a) ht
            rw [ht1]
            simp [← hΔ0]
          · have hne : k2.time - k.time ≠ 0 := ne_of_gt (sub_pos.2 hΔpos)
            rw [segTerm_rewrite hne]
            have hr0 : 0 ≤ (t1 - k.time) / (k2.time - k.time) :=
              div_nonneg (sub_nonneg.2 ht) (le_of_lt (sub_pos.2 hΔpos))
            have hr1 : (t1 - k.time) / (k2.time - k.time) ≤ 1 :=
              (div_le_one (sub_pos.2 hΔpos)).2 (by linarith)
            have hpoly := trap_poly_mono hs1 hs2 hr0 hr1 (le_refl 1)
            rw [mul_comm (1 : ℚ)] at hpoly
            have := mul_le_mul_of_nonneg_left hpoly
              (by linarith : (0 : ℚ) ≤ (k2.time - k.time) / 2)
            calc ((k2.time - k.time) / 2)
                  * (((t1 - k.time) / (k2.time - k.time))
                    * (k.speed + (k.speed + (k2.speed - k.speed)
                      * ((t1 - k.time) / (k2.time - k.time)))))
                ≤ ((k2.time - k.time) / 2) * ((k.speed + (k.speed + (k2.speed - k.speed) * 1)) * 1) := this
              _ = (k2.time - k.time) * ((k.speed + k2.speed) / 2) := by ring
        have hrest : acc + (k2.time - k.time) * ((k.speed + k2.speed) / 2)
            ≤ specGo t2 (acc + (k2.time - k.time) * ((k.speed + k2.speed) / 2)) k2 rest' :=
          specGo_ge_acc hs.of_cons hsp' (le_of_lt (lt_of_not_le h2b)) _
        linarith
    · have h2b : ¬ t2 ≤ k2.time := fun h => h2a (le_trans h12 h)
      rw [if_neg h2a, if_neg h2b]
      exact ih hs.of_cons hsp' (le_of_lt (lt_of_not_le h2a)) _

/-- The specification-form integral is monotone in query time when all speeds
are non-negative. -/
theorem specSpeedRamp_mono {kfs : List SpeedKeyframe}
    (hsp : ∀ x ∈ kfs, 0 ≤ x.speed) {t1 t2 : ℚ} (h12 : t1 ≤ t2) :
    specSpeedRamp t1 kfs ≤ specSpeedRamp t2 kfs := by
  unfold specSpeedRamp
  cases hs : sortKfs kfs with
  | nil => exact h12
  | cons k rest =>
    have hsorted : List.Sorted kfLE (k :: rest) := by
      rw [← hs]; exact sortKfs_sorted kfs
    have hsp' : ∀ x ∈ k :: rest, 0 ≤ x.speed := by
      intro x hx
      apply hsp
      rw [← mem_sortKfs (l := kfs), hs]
      exact hx
    have hks : 0 ≤ k.speed := hsp' k (List.mem_cons_self _ _)
    dsimp only
    by_cases h1 : t1 ≤ k.time
    · rw [if_pos h1]
      by_cases h2 : t2 ≤ k.time
      · rw [if_pos h2]
        exact mul_le_mul_of_nonneg_right h12 hks
      · rw [if_neg h2]
        have ha : t1 * k.speed ≤ k.time * k.speed := mul_le_mul_of_nonneg_right h1 hks
        have hb : k.time * k.speed ≤ specGo t2 (k.time * k.speed) k rest :=
          specGo_ge_acc hsorted hsp' (le_of_lt (lt_of_not_le h2)) _
        linarith
    · have h2 : ¬ t2 ≤ k.time := fun h => h1 (le_trans h12 h)
      rw [if_neg h1, if_neg h2]
      exact specGo_mono hsorted hsp' (le_of_lt (lt_of_not_le h1)) h12 _

/-- Monotonicity transferred to the code's `evaluateSpeedRamp`. -/
theorem evaluateSpeedRamp_mono {kfs : List SpeedKeyframe}
    (hsp : ∀ x ∈ kfs, 0 ≤ x.speed) {t1 t2 : ℚ} (h12 : t1 ≤ t2) :
    evaluateSpeedRamp t1 kfs ≤ evaluateSpeedRamp t2 kfs := by
  rw [evaluateSpeedRamp_eq_specSpeedRamp, evaluateSpeedRamp_eq_specSpeedRamp]
  exact specSpeedRamp_mono hsp h12

/-! ### Timeline-evaluation helpers -/

/-- A push-if loop is the map of the filter. -/
theorem foldl_push {α β : Type} (p : α → Prop) [DecidablePred p] (g : α → β) :
    ∀ (l : List α) (acc : List β),
      l.foldl (fun acc x => if p x then acc ++ [g x] else acc) acc
        = acc ++ (l.filter (fun x => decide (p x))).map g := by
  intro l
  induction l with
  | nil => intro acc; simp
  | cons a l ih =>
    intro acc
    simp only [List.foldl_cons]
    by_cases h : p a
    · rw [if_pos h, ih]
      simp [List.filter_cons, h]
    · rw [if_neg h, ih]
      simp [List.filter_cons, h]

/-! ### Render-planner helpers -/

/-- One step of the planner loop. -/
theorem planLoop_cons (trimStart clipDuration : ℚ) (sorted : List SpeedKeyframe)
    (k : SpeedKeyframe) (rest : List SpeedKeyframe) :
    planLoop trimStart clipDuration sorted (k :: rest)
      = if (match rest with | [] => clipDuration | next :: _ => next.time) - k.time ≤ 0
        then planLoop trimStart clipDuration sorted rest
        else { segStart := k.time
               segDuration :=
                 (match rest with | [] => clipDuration | next :: _ => next.time) - k.time
               sourceStart := trimStart + evaluateSpeedRamp k.time sorted
               speed := k.speed } :: planLoop trimStart clipDuration sorted rest := rfl

/-- The planner loop agrees with the zip-with-boundaries description. -/
theorem planLoop_eq_zip (trimStart clipDuration : ℚ) (sorted : List SpeedKeyframe) :
    ∀ l : List SpeedKeyframe,
      planLoop trimStart clipDuration sorted l
        = (l.zip ((l.drop 1).map SpeedKeyframe.time ++ [clipDuration])).filterMap
            (fun p =>
              if 0 < p.2 - p.1.time then
                some { segStart := p.1.time
                       segDuration := p.2 - p.1.time
                       sourceStart := trimStart + evaluateSpeedRamp p.1.time sorted
                       speed := p.1.speed }
              else none) := by
  intro l
  induction l with
  | nil => rfl
  | cons k rest ih =>
    rw [planLoop_cons]
    cases rest with
    | nil =>
      simp only [List.drop_succ_cons, List.drop_nil, List.map_nil,
        List.nil_append, List.zip_cons_cons, List.zip_nil_right, List.filterMap_cons]
      rcases le_or_lt (clipDuration - k.time) 0 with h | h
      · rw [if_pos h, if_neg (not_lt.2 h)]
        rfl
      · rw [if_neg (not_le.2 h), if_pos h]
        rfl
    | cons k2 rest' =>
      simp only [List.drop_succ_cons, List.drop_zero, List.map_cons,
        List.cons_append, List.zip_cons_cons, List.filterMap_cons]
      rcases le_or_lt (k2.time - k.time) 0 with h | h
      · rw [if_pos h, if_neg (not_lt.2 h)]
        rw [ih]
        simp
      · rw [if_neg (not_le.2 h), if_pos h]
        rw [ih]
        simp

/-! ### Interpolation helpers -/

theorem sortTKfs_nil_iff {l : List TransformKeyframe} : sortTKfs l = [] ↔ l = [] := by
  constructor
  · intro h
    have := (List.perm_insertionSort tkLE l).length_eq
    rw [show List.insertionSort tkLE l = sortTKfs l from rfl, h] at this
    exact List.length_eq_zero.mp this.symm
  · intro h; subst h; rfl

/-- Before (or at) the first sorted keyframe the channel value of the first
keyframe is returned as-is. -/
theorem interpolateKeyframes_before_first {t : ℚ} {kfs : List TransformKeyframe}
    {p : Channel} {k : TransformKeyframe} {rest : List TransformKeyframe}
    (hs : sortTKfs kfs = k :: rest) (ht : t ≤ k.time) :
    interpolateKeyframes t kfs p = k.get p := by
  cases kfs with
  | nil => exact List.noConfusion hs
  | cons a l =>
    simp only [interpolateKeyframes, interpSorted]
    rw [hs]
    simp only [List.headD_cons]
    rw [if_pos ht]

/-- At or past the last sorted keyframe (and strictly past the first) the
channel value of the last keyframe is returned as-is. -/
theorem interpolateKeyframes_after_last {t : ℚ} {kfs : List TransformKeyframe}
    {p : Channel} {k : TransformKeyframe} {rest : List TransformKeyframe}
    (hs : sortTKfs kfs = k :: rest) (hfirst : k.time < t)
    (hlast : ((k :: rest).getLastD default).time ≤ t) :
    interpolateKeyframes t kfs p = ((k :: rest).getLastD default).get p := by
  cases kfs with
  | nil => exact List.noConfusion hs
  | cons a l =>
    simp only [interpolateKeyframes, interpSorted]
    rw [hs]
    simp only [List.headD_cons]
    rw [if_neg (not_le.2 hfirst), if_pos hlast]

/-- Boundary laws for the render path's `interpolateValue`. -/
theorem interpolateValue_before_first {t d : ℚ} {kfs : List TransformKeyframe}
    {p : Channel} {k : TransformKeyframe} {rest : List TransformKeyframe}
    (hs : sortTKfs kfs = k :: rest) (ht : t ≤ k.time) :
    interpolateValue kfs p t d = (k.get p).getD d := by
  cases kfs with
  | nil => exact List.noConfusion hs
  | cons a l =>
    simp only [interpolateValue]
    rw [hs]
    simp only [List.headD_cons]
    rw [if_pos ht]

theorem interpolateValue_after_last {t d : ℚ} {kfs : List TransformKeyframe}
    {p : Channel} {k : TransformKeyframe} {rest : List TransformKeyframe}
    (hs : sortTKfs kfs = k :: rest) (hfirst : k.time < t)
    (hlast : ((k :: rest).getLastD default).time ≤ t) :
    interpolateValue kfs p t d = (((k :: rest).getLastD default).get p).getD d := by
  cases kfs with
  | nil => exact List.noConfusion hs
  | cons a l =>
    simp only [interpolateValue]
    rw [hs]
    simp only [List.headD_cons]
    rw [if_neg (not_le.2 hfirst), if_pos hlast]

/-- The evaluate path's loop, characterised through the first bracketing
pair: `undefined` when there is none or when either endpoint of the pair
omits the channel, otherwise the linear interpolation of the two present
values. -/
theorem interpLoop_findBracket (t : ℚ) (p : Channel) :
    ∀ l : List TransformKeyframe,
      interpLoop t p l
        = match findBracket t l with
          | some (k1, k2) =>
            (match k1.get p, k2.get p with
             | some v1, some v2 =>
               some (v1 + (v2 - v1) * ((t - k1.time) / (k2.time - k1.time)))
             | _, _ => none)
          | none => none := by
  intro l
  induction l with
  | nil => rfl
  | cons k1 l' ih =>
    cases l' with
    | nil => rfl
    | cons k2 rest =>
      by_cases h : k1.time ≤ t ∧ t ≤ k2.time
      · simp only [interpLoop, findBracket, if_pos h]
      · simp only [interpLoop, findBracket, if_neg h]
        exact ih

/-- The render path's loop, characterised through the first bracketing pair:
the default when there is none, otherwise the linear interpolation with the
default substituted for each missing endpoint. -/
theorem valLoop_findBracket (t d : ℚ) (p : Channel) :
    ∀ l : List TransformKeyframe,
      valLoop t p d l
        = match findBracket t l with
          | some (k1, k2) =>
            (k1.get p).getD d + ((k2.get p).getD d - (k1.get p).getD d)
              * ((t - k1.time) / (k2.time - k1.time))
          | none => d := by
  intro l
  induction l with
  | nil => rfl
  | cons k1 l' ih =>
    cases l' with
    | nil => rfl
    | cons k2 rest =>
      by_cases h : k1.time ≤ t ∧ t ≤ k2.time
      · simp only [valLoop, findBracket, if_pos h]
      · simp only [valLoop, findBracket, if_neg h]
        exact ih

/-- Between two bracketing keyframes, a missing channel on the second
keyframe makes `interpolateKeyframes` return `undefined` (collapsing to the
caller's default), while `interpolateValue` substitutes the default for the
missing endpoint and still interpolates from the present value. -/
theorem interp_missing_endpoint {k1 k2 : TransformKeyframe} {p : Channel}
    {t d v1 : ℚ} (h1 : k1.time < t) (h2 : t < k2.time)
    (hv1 : k1.get p = some v1) (hv2 : k2.get p = none) :
    interpolateKeyframes t [k1, k2] p = none ∧
      interpolateValue [k1, k2] p t d
        = v1 + (d - v1) * ((t - k1.time) / (k2.time - k1.time)) := by
  have hle : tkLE k1 k2 := le_of_lt (h1.trans h2)
  have hsort : sortTKfs [k1, k2] = [k1, k2] := by
    simp only [sortTKfs, List.insertionSort, List.orderedInsert]
    rw [if_pos hle]
  have hlast : ([k1, k2].getLastD default) = k2 := rfl
  constructor
  · simp only [interpolateKeyframes, interpSorted]
    rw [hsort]
    simp only [List.headD_cons, hlast]
    rw [if_neg (not_le.2 h1), if_neg (not_le.2 h2)]
    simp only [interpLoop, if_pos (And.intro (le_of_lt h1) (le_of_lt h2))]
    rw [hv1, hv2]
  · simp only [interpolateValue]
    rw [hsort]
    simp only [List.headD_cons, hlast]
    rw [if_neg (not_le.2 h1), if_neg (not_le.2 h2)]
    simp only [valLoop, if_pos (And.intro (le_of_lt h1) (le_of_lt h2))]
    rw [hv1, hv2]
    rfl

/-! ### Job-store helpers -/

/-- A filter of length at most one holds at most one satisfying value. -/
theorem eq_of_filter_length_le_one {α : Type} {l : List α} {p : α → Bool}
    (h : (l.filter p).length ≤ 1) {a b : α} (ha : a ∈ l) (hb : b ∈ l)
    (hpa : p a = true) (hpb : p b = true) : a = b := by
  have ha' : a ∈ l.filter p := List.mem_filter.2 ⟨ha, hpa⟩
  have hb' : b ∈ l.filter p := List.mem_filter.2 ⟨hb, hpb⟩
  cases hf : l.filter p with
  | nil => rw [hf] at ha'; cases ha'
  | cons x rest =>
    cases rest with
    | nil =>
      rw [hf] at ha' hb'
      rw [List.mem_singleton.mp ha', List.mem_singleton.mp hb']
    | cons y rest' =>
      rw [hf] at h
      simp at h

/-- With a QUEUED/RUNNING export present for the project (and the at-most-one
invariant), `createExportJob` returns exactly that export and leaves the
store untouched. -/
theorem createExportJob_existing {store : JobStore} {pid : String} {j : ExportJob}
    (hmem : j ∈ store.jobs) (hp : inFlightFor pid j = true)
    (huniq : atMostOneInFlight store pid) :
    (createExportJob pid store).1 = j ∧ (createExportJob pid store).2 = store := by
  unfold createExportJob
  cases hf : store.jobs.find? (inFlightFor pid) with
  | none =>
    rw [List.find?_eq_none] at hf
    exact absurd hp (hf j hmem)
  | some found =>
    have hfm : found ∈ store.jobs := List.mem_of_find?_eq_some hf
    have hfp : inFlightFor pid found = true := List.find?_some hf
    have : found = j := eq_of_filter_length_le_one huniq hfm hmem hfp hp
    subst this
    exact ⟨rfl, rfl⟩

/-- With no QUEUED/RUNNING export for the project, `createExportJob` creates
a fresh QUEUED record with progress 0, appends it, and enqueues it. -/
theorem createExportJob_fresh {store : JobStore} {pid : String}
    (hnone : ∀ j ∈ store.jobs, inFlightFor pid j = false) :
    (createExportJob pid store).1
        = { id := store.nextId, projectId := pid, status := .QUEUED, progress := 0 }
      ∧ (createExportJob pid store).2.jobs
          = store.jobs ++ [(createExportJob pid store).1]
      ∧ (createExportJob pid store).2.nextId = store.nextId + 1
      ∧ (createExportJob pid store).2.pending
          = store.pending ++ [(store.nextId, pid)] := by
  unfold createExportJob
  cases hf : store.jobs.find? (inFlightFor pid) with
  | none => exact ⟨rfl, rfl, rfl, rfl⟩
  | some found =>
    have hfm : found ∈ store.jobs := List.mem_of_find?_eq_some hf
    have hfp : inFlightFor pid found = true := List.find?_some hf
    rw [hnone found hfm] at hfp
    cases hfp

/-- `createExportJob` preserves the at-most-one-in-flight invariant for every
project. -/
theorem createExportJob_preserves {store : JobStore} {pid : String} (pid2 : String)
    (h2 : atMostOneInFlight store pid2) :
    atMostOneInFlight (createExportJob pid store).2 pid2 := by
  unfold createExportJob
  cases hf : store.jobs.find? (inFlightFor pid) with
  | some found => exact h2
  | none =>
    unfold atMostOneInFlight at h2 ⊢
    dsimp only
    rw [List.filter_append, List.length_append]
    by_cases hpp : pid2 = pid
    · subst hpp
      have hnil : store.jobs.filter (inFlightFor pid2) = [] := by
        rw [List.filter_eq_nil]
        intro j hj
        rw [List.find?_eq_none] at hf
        simp [hf j hj]
      rw [hnil]
      simp only [List.length_nil, Nat.zero_add]
      exact le_trans (List.length_filter_le _ _) (by simp)
    · have hrec : inFlightFor pid2
          { id := store.nextId, projectId := pid, status := .QUEUED, progress := 0 }
            = false := by
        unfold inFlightFor
        simp only [Bool.and_eq_false_iff]
        left
        simp only [beq_eq_false_iff_ne, ne_eq]
        exact fun h => hpp h.symm
      simp only [List.filter_cons, hrec, List.filter_nil, List.length_nil, Nat.add_zero]
      simpa using h2

/-- After marking the (only possible) in-flight export of the project with a
terminal status, no in-flight export of the project remains. -/
theorem setStatus_clears_inFlight {store : JobStore} {pid : String} {jobId : ℕ}
    {status' : JobStatus}
    (hterm : status' = JobStatus.COMPLETE ∨ status' = JobStatus.FAILED)
    (hall : ∀ j ∈ store.jobs, inFlightFor pid j = true → j.id = jobId) :
    ∀ j ∈ (setJobStatus store jobId status').jobs, inFlightFor pid j = false := by
  intro j hj
  unfold setJobStatus at hj
  simp only [List.mem_map] at hj
  obtain ⟨j0, hj0, hj0eq⟩ := hj
  by_cases hid : (j0.id == jobId) = true
  · rw [if_pos hid] at hj0eq
    subst hj0eq
    unfold inFlightFor ExportJob.inFlight
    rcases hterm with h | h <;> rw [h] <;> simp
  · rw [if_neg hid] at hj0eq
    subst hj0eq
    by_cases hifl : inFlightFor pid j0 = true
    · exact absurd (by exact_mod_cast congrArg (· == jobId) (hall j0 hj0 hifl))
        (by simpa using hid)
    · simpa using hifl

/-- `setJobStatus` keeps ids and the id supply. -/
theorem setJobStatus_ids {store : JobStore} {jobId : ℕ} {status' : JobStatus} :
    (setJobStatus store jobId status').nextId = store.nextId
      ∧ ∀ j ∈ (setJobStatus store jobId status').jobs,
          ∃ j0 ∈ store.jobs, j.id = j0.id := by
  refine ⟨rfl, ?_⟩
  intro j hj
  unfold setJobStatus at hj
  simp only [List.mem_map] at hj
  obtain ⟨j0, hj0, hj0eq⟩ := hj
  refine ⟨j0, hj0, ?_⟩
  by_cases hid : (j0.id == jobId) = true
  · rw [if_pos hid] at hj0eq; subst hj0eq; rfl
  · rw [if_neg hid] at hj0eq; subst hj0eq; rfl

/-! ### Atempo-chain helpers -/

/-- Structure of the halving loop: factors are all `2`, the product
reconstructs the argument, the remainder ends at or below `2.001`, and a
starting point at or above `0.5` keeps the remainder at or above `0.5`. -/
theorem atempoHalve_spec : ∀ r : ℚ,
    (atempoHalve r).2 * 2 ^ (atempoHalve r).1.length = r
      ∧ (∀ f ∈ (atempoHalve r).1, f = 2)
      ∧ (atempoHalve r).2 ≤ 2 + 1 / 1000
      ∧ (1 / 2 ≤ r → 1 / 2 ≤ (atempoHalve r).2) := by
  intro r
  induction r using atempoHalve.induct with
  | case1 r h ih =>
    rw [atempoHalve, dif_pos h]
    refine ⟨?_, ?_, ?_, ?_⟩
    · have hprod := ih.1
      simp only [List.length_cons, pow_succ]
      calc (atempoHalve (r / 2)).2 * (2 ^ (atempoHalve (r / 2)).1.length * 2)
          = ((atempoHalve (r / 2)).2 * 2 ^ (atempoHalve (r / 2)).1.length) * 2 := by ring
        _ = (r / 2) * 2 := by rw [hprod]
        _ = r := by ring
    · intro f hf
      rcases List.mem_cons.mp hf with rfl | hf'
      · rfl
      · exact ih.2.1 f hf'
    · exact ih.2.2.1
    · intro _
      exact ih.2.2.2 (by linarith)
  | case2 r h =>
    rw [atempoHalve, dif_neg h]
    refine ⟨by simp, by simp, by linarith [not_lt.1 h], fun hr => hr⟩

/-- The raising loop's factors are all `0.5`. -/
theorem atempoRaise_mem : ∀ r : ℚ, ∀ f ∈ (atempoRaise r).1, f = 1 / 2 := by
  intro r
  induction r using atempoRaise.induct with
  | case1 r h ih =>
    rw [atempoRaise, dif_pos h]
    intro f hf
    rcases List.mem_cons.mp hf with rfl | hf'
    · rfl
    · exact ih f hf'
  | case2 r h =>
    rw [atempoRaise, dif_neg h]
    intro f hf
    cases hf

/-- The raising loop does nothing from `0.5` upward. -/
theorem atempoRaise_skip {r : ℚ} (h : 1 / 2 ≤ r) : atempoRaise r = ([], r) := by
  rw [atempoRaise, dif_neg]
  rintro ⟨h1, _⟩
  linarith

/-- Four-decimal rounding keeps the interval `[0.5, 2]`. -/
theorem round4_bounds {x : ℚ} (h1 : 1 / 2 ≤ x) (h2 : x ≤ 2) :
    1 / 2 ≤ round4 x ∧ round4 x ≤ 2 := by
  unfold round4
  constructor
  · have hfl : (5000 : ℤ) ≤ ⌊x * 10000 + 1 / 2⌋ := Int.le_floor.2 (by push_cast; linarith)
    have hfl' : ((5000 : ℤ) : ℚ) ≤ (⌊x * 10000 + 1 / 2⌋ : ℚ) := by exact_mod_cast hfl
    push_cast at hfl'
    linarith
  · have hfl : ⌊x * 10000 + 1 / 2⌋ ≤ ⌊(20000 + 1 / 2 : ℚ)⌋ :=
      Int.floor_le_floor (by linarith)
    have h20 : ⌊(20000 + 1 / 2 : ℚ)⌋ = 20000 := by
      rw [Int.floor_eq_iff]
      norm_num
    rw [h20] at hfl
    have hfl' : (⌊x * 10000 + 1 / 2⌋ : ℚ) ≤ ((20000 : ℤ) : ℚ) := by exact_mod_cast hfl
    push_cast at hfl'
    linarith

/-- Every factor of any atempo chain lies in `[0.5, 2]`. -/
theorem buildAtempoChain_factors {s f : ℚ} (hf : f ∈ buildAtempoChain s) :
    1 / 2 ≤ f ∧ f ≤ 2 := by
  unfold buildAtempoChain at hf
  simp only [List.mem_append, List.mem_singleton] at hf
  rcases hf with (hf | hf) | hf
  · rw [(atempoHalve_spec _).2.1 f hf]
    norm_num
  · rw [atempoRaise_mem _ f hf]
    norm_num
  · subst hf
    apply round4_bounds
    · exact le_max_left _ _
    · exact max_le (by norm_num) (min_le_left _ _)

/-- When the remainder after halving is at most `2` and survives the
four-decimal rounding exactly, the chain's product is the clamped speed. -/
theorem buildAtempoChain_prod {s : ℚ} (hs1 : 1 / 2 ≤ s) (hs8 : s ≤ 8)
    (hrem : (atempoHalve s).2 ≤ 2)
    (hexact : round4 (atempoHalve s).2 = (atempoHalve s).2) :
    (buildAtempoChain s).prod = s := by
  unfold buildAtempoChain
  have hclamp : max (1 / 2) (min 8 s) = s := by
    rw [min_eq_right hs8, max_eq_right hs1]
  rw [hclamp]
  dsimp only
  have hspec := atempoHalve_spec s
  have hge : 1 / 2 ≤ (atempoHalve s).2 := hspec.2.2.2 hs1
  rw [atempoRaise_skip hge]
  have hminmax : max (1 / 2) (min 2 (atempoHalve s).2) = (atempoHalve s).2 := by
    rw [min_eq_right hrem, max_eq_right hge]
  simp only [hminmax, hexact, List.append_nil]
  rw [List.prod_append, List.prod_singleton]
  have hpow : (atempoHalve s).1.prod = 2 ^ (atempoHalve s).1.length :=
    List.prod_eq_pow_card _ 2 (hspec.2.1)
  rw [hpow]
  rw [mul_comm]
  exact hspec.1

/-- Rounding an integer-plus-half rational floors to the integer. -/
theorem floor_add_half (n : ℤ) : ⌊((n : ℚ) + 1 / 2)⌋ = n := by
  rw [Int.floor_eq_iff]
  constructor
  · linarith
  · linarith

/-- Concrete halving run used as a sample chain. -/
theorem atempoHalve_five : atempoHalve (5 : ℚ) = ([2, 2], 5 / 4) := by
  rw [atempoHalve, dif_pos (by norm_num)]
  rw [atempoHalve, dif_pos (by norm_num)]
  rw [atempoHalve, dif_neg (by norm_num)]
  norm_num

/-- `1.25` is exact in four decimals. -/
theorem round4_five_quarters : round4 (5 / 4 : ℚ) = 5 / 4 := by
  unfold round4
  rw [show ((5 : ℚ) / 4 * 10000 + 1 / 2) = (((12500 : ℤ) : ℚ) + 1 / 2 : ℚ) by norm_num]
  rw [floor_add_half]
  norm_num

/-! ## Claim theorems -/

/-- Claim C1: for every clip-local time and every keyframe list,
`evaluateSpeedRamp` computes exactly the piecewise trapezoidal integral of
the speed curve as the specification states it (`specSpeedRamp`): identity on
the empty list, `t * first.speed` at or before the first keyframe, the
accumulated full trapezoids plus the pre-first contribution plus the partial
trapezoid with linearly interpolated speed between keyframes, and constant
extrapolation after the last keyframe; in particular keyframes
`[{time 0, speed 1}, {time 2, speed 2}]` give `evaluateSpeedRamp 2 = 3`. -/
theorem C1_speedRamp_is_trapezoidal_integral :
    (∀ (t : ℚ) (kfs : List SpeedKeyframe),
        evaluateSpeedRamp t kfs = specSpeedRamp t kfs)
      ∧ evaluateSpeedRamp 2 [⟨0, 1⟩, ⟨2, 2⟩] = 3 := by
  refine ⟨evaluateSpeedRamp_eq_specSpeedRamp, ?_⟩
  norm_num [evaluateSpeedRamp, evalRampSorted, sortKfs, sourceTimeAtKeyframe, rampSeg,
    kfLE, List.insertionSort, List.orderedInsert, Finset.sum_range_succ]

/-- Claim C2: `evaluateTimeline` returns exactly the clips and overlays with
`startTime ≤ t < endTime` (half-open activation), each active clip carrying
`clipLocalTime = t - startTime` and
`sourceTime = trimStart + evaluateSpeedRamp clipLocalTime speedKeyframes`
(see `clipEntry` / `overlayEntry`); the example clip
`{start 0, end 4, trimStart 5, speedKeyframes [{time 0, speed 2}]}` queried at
`t = 2` yields `clipLocalTime = 2` and `sourceTime = 9`. -/
theorem C2_evaluateTimeline_half_open_activation :
    (∀ (t : ℚ) (clips : List ClipData) (overlays : List OverlayData),
        (evaluateTimeline t clips overlays).activeClips
            = (clips.filter (fun c => decide (c.startTime ≤ t ∧ t < c.endTime))).map
                (clipEntry t)
          ∧ (evaluateTimeline t clips overlays).activeOverlays
              = (overlays.filter (fun o => decide (o.startTime ≤ t ∧ t < o.endTime))).map
                  (overlayEntry t))
      ∧ (evaluateTimeline 2
          [{ id := "clip-1", track := "video_a", assetId := "asset-1",
             startTime := 0, endTime := 4, trimStart := 5,
             speedKeyframes := [⟨0, 2⟩] }] []).activeClips
          = [{ clipId := "clip-1", track := "video_a", assetId := "asset-1",
               sourceTime := 9, clipLocalTime := 2 }] := by
  constructor
  · intro t clips overlays
    constructor
    · have h := foldl_push (fun c : ClipData => c.startTime ≤ t ∧ t < c.endTime)
        (clipEntry t) clips []
      rw [List.nil_append] at h
      exact h
    · have h := foldl_push (fun o : OverlayData => o.startTime ≤ t ∧ t < o.endTime)
        (overlayEntry t) overlays []
      rw [List.nil_append] at h
      exact h
  · norm_num [evaluateTimeline, clipEntry, evaluateSpeedRamp, evalRampSorted, sortKfs,
      sourceTimeAtKeyframe, rampSeg, kfLE, List.insertionSort, List.orderedInsert,
      Finset.sum_range_succ]

/-- Claim C3: with all keyframe speeds non-negative, `evaluateSpeedRamp` is
monotone in time, across keyframe boundaries and outside the keyframe range. -/
theorem C3_speedRamp_monotone :
    ∀ kfs : List SpeedKeyframe, (∀ k ∈ kfs, 0 ≤ k.speed) →
      ∀ t1 t2 : ℚ, t1 < t2 →
        evaluateSpeedRamp t1 kfs ≤ evaluateSpeedRamp t2 kfs :=
  fun _ hsp _ _ h12 => evaluateSpeedRamp_mono hsp (le_of_lt h12)

/-- Witness instantiating claim C3 at a concrete ramp. -/
theorem C3_speedRamp_monotone_witness :
    evaluateSpeedRamp 1 [⟨0, 1⟩, ⟨2, 2⟩] ≤ evaluateSpeedRamp 2 [⟨0, 1⟩, ⟨2, 2⟩] :=
  C3_speedRamp_monotone [⟨0, 1⟩, ⟨2, 2⟩]
    (by
      intro k hk
      rcases List.mem_cons.mp hk with rfl | hk'
      · norm_num
      · rcases List.mem_singleton.mp hk' with rfl
        norm_num)
    1 2 (by norm_num)

/-- Claim C4: for a clip with a non-empty keyframe list the render planner
produces one segment per consecutive sorted keyframe pair with an implicit
final boundary at the clip duration (`specPlanSegments`), each rendered from
`trimStart + evaluateSpeedRamp(segStart, sorted)` at constant speed; segments
of non-positive duration are skipped (every planned segment has positive
duration); concatenation is skipped exactly for a single-segment plan; and a
segment is rendered as a freeze (one extracted still frame repeated for the
segment duration) exactly when its speed is below `0.01`. -/
theorem C4_render_planner_segments :
    ∀ (trimStart clipDuration : ℚ) (keyframes : List SpeedKeyframe),
      keyframes ≠ [] →
      (renderSegmentedClipPlan trimStart clipDuration keyframes).1
          = specPlanSegments trimStart clipDuration keyframes
        ∧ (∀ seg ∈ (renderSegmentedClipPlan trimStart clipDuration keyframes).1,
            0 < seg.segDuration
              ∧ (renderSegmentAction seg.sourceStart seg.segDuration seg.speed
                  = RenderAction.freeze seg.sourceStart seg.segDuration
                ↔ seg.speed < 1 / 100))
        ∧ ((renderSegmentedClipPlan trimStart clipDuration keyframes).2 = true
            ↔ (renderSegmentedClipPlan trimStart clipDuration keyframes).1.length = 1) := by
  intro ts cd kfs _
  refine ⟨?_, ?_, ?_⟩
  · unfold renderSegmentedClipPlan specPlanSegments
    exact planLoop_eq_zip ts cd (sortKfs kfs) (sortKfs kfs)
  · intro seg hseg
    constructor
    · unfold renderSegmentedClipPlan at hseg
      dsimp only at hseg
      rw [planLoop_eq_zip] at hseg
      simp only [List.mem_filterMap] at hseg
      obtain ⟨p, _, hif⟩ := hseg
      by_cases hpos : 0 < p.2 - p.1.time
      · rw [if_pos hpos] at hif
        cases hif
        exact hpos
      · rw [if_neg hpos] at hif
        cases hif
    · unfold renderSegmentAction
      by_cases h : seg.speed < 1 / 100
      · rw [if_pos h]
        simpa using h
      · rw [if_neg h]
        simpa using le_of_not_lt h
  · unfold renderSegmentedClipPlan
    simp

/-- Witness instantiating claim C4 at a concrete single-keyframe clip. -/
theorem C4_render_planner_segments_witness :
    (renderSegmentedClipPlan 0 4 [⟨0, 2⟩]).1 = specPlanSegments 0 4 [⟨0, 2⟩]
      ∧ ((renderSegmentedClipPlan 0 4 [⟨0, 2⟩]).2 = true
          ↔ (renderSegmentedClipPlan 0 4 [⟨0, 2⟩]).1.length = 1) :=
  ⟨(C4_render_planner_segments 0 4 [⟨0, 2⟩] (by simp)).1,
   (C4_render_planner_segments 0 4 [⟨0, 2⟩] (by simp)).2.2⟩

/-- Claim C5: while a QUEUED/RUNNING export exists for a project,
`createExportJob` returns that very job and changes nothing (no new record, no
new queue entry); with no in-flight job (in particular after a terminal
status), it creates a fresh QUEUED job with progress 0 and an unused id; and
the per-project at-most-one-in-flight invariant is preserved. -/
theorem C5_createExportJob_idempotent :
    ∀ (store : JobStore) (pid : String),
      store.wf →
      atMostOneInFlight store pid →
      ((∀ j ∈ store.jobs, inFlightFor pid j = true →
          (createExportJob pid store).1 = j ∧ (createExportJob pid store).2 = store)
        ∧ ((∀ j ∈ store.jobs, inFlightFor pid j = false) →
            (createExportJob pid store).1.id = store.nextId
              ∧ (createExportJob pid store).1.status = JobStatus.QUEUED
              ∧ (createExportJob pid store).1.progress = 0
              ∧ (∀ j ∈ store.jobs, j.id ≠ (createExportJob pid store).1.id)
              ∧ (createExportJob pid store).2.jobs
                  = store.jobs ++ [(createExportJob pid store).1]
              ∧ (createExportJob pid store).2.pending
                  = store.pending ++ [(store.nextId, pid)])
        ∧ (∀ pid2, atMostOneInFlight store pid2 →
            atMostOneInFlight (createExportJob pid store).2 pid2)
        ∧ (∀ (jobId : ℕ) (terminal : JobStatus),
            (terminal = JobStatus.COMPLETE ∨ terminal = JobStatus.FAILED) →
            (∀ j ∈ store.jobs, inFlightFor pid j = true → j.id = jobId) →
            (createExportJob pid (setJobStatus store jobId terminal)).1.id = store.nextId
              ∧ (createExportJob pid (setJobStatus store jobId terminal)).1.status
                  = JobStatus.QUEUED
              ∧ (createExportJob pid (setJobStatus store jobId terminal)).1.progress = 0
              ∧ (∀ j ∈ (setJobStatus store jobId terminal).jobs,
                  j.id ≠ (createExportJob pid (setJobStatus store jobId terminal)).1.id))) := by
  intro store pid hwf huniq
  refine ⟨?_, ?_, ?_, ?_⟩
  · intro j hj hp
    exact createExportJob_existing hj hp huniq
  · intro hnone
    obtain ⟨h1, h2, h3, h4⟩ := createExportJob_fresh hnone
    rw [h1]
    exact ⟨rfl, rfl, rfl,
      fun j hj => Nat.ne_of_lt (hwf.1 j hj),
      by rw [h2, h1], h4⟩
  · intro pid2 h2
    exact createExportJob_preserves pid2 h2
  · intro jobId terminal hterm hall
    have hnone' := setStatus_clears_inFlight hterm hall
    obtain ⟨h1, h2, h3, h4⟩ := createExportJob_fresh hnone'
    have hnext : (setJobStatus store jobId terminal).nextId = store.nextId := rfl
    rw [h1, hnext]
    refine ⟨rfl, rfl, rfl, ?_⟩
    intro j hj
    obtain ⟨j0, hj0, hid⟩ := (@setJobStatus_ids store jobId terminal).2 j hj
    rw [hid]
    exact Nat.ne_of_lt (hwf.1 j0 hj0)

/-- Witness instantiating claim C5 on a store holding one RUNNING export. -/
theorem C5_createExportJob_idempotent_witness :
    (createExportJob "p"
        ⟨[⟨0, "p", JobStatus.RUNNING, 50⟩], 1, []⟩).1
        = ⟨0, "p", JobStatus.RUNNING, 50⟩
      ∧ (createExportJob "p"
          ⟨[⟨0, "p", JobStatus.RUNNING, 50⟩], 1, []⟩).2
          = ⟨[⟨0, "p", JobStatus.RUNNING, 50⟩], 1, []⟩ :=
  (C5_createExportJob_idempotent ⟨[⟨0, "p", JobStatus.RUNNING, 50⟩], 1, []⟩ "p"
      ⟨by intro j hj; simp at hj; rw [hj]; norm_num,
       by simp [JobStore.wf]⟩
      (by simp [atMostOneInFlight, List.filter, inFlightFor, ExportJob.inFlight])).1
    ⟨0, "p", JobStatus.RUNNING, 50⟩ (by simp) (by rfl)

/-- Claim C6 (evaluation at the failing input): running the modelled
`renderProject` success path on a project with one track-A clip and two image
overlays leaves the first image-overlay intermediate (file `2`) on disk next
to the final output (file `0`): the cleanup list never receives the
intermediate files chained inside `applyImageOverlays`. -/
theorem C6_renderProject_leftover_intermediate :
    (renderProjectFs 1 2 ⟨[], 0⟩).2.existing = [2, 0]
      ∧ (renderProjectFs 1 2 ⟨[], 0⟩).1 = 0
      ∧ ∃ f ∈ (renderProjectFs 1 2 ⟨[], 0⟩).2.existing,
          f ≠ (renderProjectFs 1 2 ⟨[], 0⟩).1 :=
  ⟨by decide, by decide, ⟨2, by decide, by decide⟩⟩

/-- Counterexample to claim C7: between two bracketing keyframes where the
second omits the channel, the evaluate path (`interpolateKeyframes` with the
caller's `?? default`) collapses to the default `0` instead of the claimed
interpolation toward the default (`5`, which the render path's
`interpolateValue` does produce). -/
theorem C7_counterexample_missing_endpoint :
    (interpolateKeyframes 1 [{ time := 0, x := some 10 }, { time := 2 }]
        Channel.x).getD 0 = 0
      ∧ interpolateValue [{ time := 0, x := some 10 }, { time := 2 }]
          Channel.x 1 0 = 5
      ∧ ((0 : ℚ) ≠ 5) := by
  have h := @interp_missing_endpoint { time := 0, x := some 10 } { time := 2 }
    Channel.x 1 0 10 (by norm_num) (by norm_num) rfl rfl
  refine ⟨by rw [h.1]; rfl, by rw [h.2]; norm_num, by norm_num⟩

/-- Claim C7 as amended: the boundary laws hold for both interpolation
operations (at or before the first sorted keyframe the first keyframe's
channel value is returned, symmetrically at the end); between bracketing
keyframes the render path's `interpolateValue` substitutes the default for a
missing endpoint and interpolates toward it, while the evaluate path's
`interpolateKeyframes` returns `undefined` (hence the channel default)
whenever either bracketing endpoint omits the channel. -/
theorem C7_interpolation_laws :
    (∀ (t : ℚ) (kfs : List TransformKeyframe) (p : Channel)
        (k : TransformKeyframe) (rest : List TransformKeyframe),
        sortTKfs kfs = k :: rest → t ≤ k.time →
        interpolateKeyframes t kfs p = k.get p
          ∧ ∀ d, interpolateValue kfs p t d = (k.get p).getD d)
      ∧ (∀ (t : ℚ) (kfs : List TransformKeyframe) (p : Channel)
          (k : TransformKeyframe) (rest : List TransformKeyframe),
          sortTKfs kfs = k :: rest → k.time < t →
          ((k :: rest).getLastD default).time ≤ t →
          interpolateKeyframes t kfs p = ((k :: rest).getLastD default).get p
            ∧ ∀ d, interpolateValue kfs p t d
                = (((k :: rest).getLastD default).get p).getD d)
      ∧ (∀ (t : ℚ) (kfs : List TransformKeyframe) (p : Channel) (d : ℚ)
          (k : TransformKeyframe) (rest : List TransformKeyframe),
          sortTKfs kfs = k :: rest → k.time < t →
          t < ((k :: rest).getLastD default).time →
          ∀ k1 k2 : TransformKeyframe,
            findBracket t (k :: rest) = some (k1, k2) →
            ((k1.get p = none ∨ k2.get p = none) →
                interpolateKeyframes t kfs p = none)
              ∧ (∀ v1 v2 : ℚ, k1.get p = some v1 → k2.get p = some v2 →
                  interpolateKeyframes t kfs p
                    = some (v1 + (v2 - v1) * ((t - k1.time) / (k2.time - k1.time))))
              ∧ interpolateValue kfs p t d
                  = (k1.get p).getD d + ((k2.get p).getD d - (k1.get p).getD d)
                      * ((t - k1.time) / (k2.time - k1.time))) := by
  refine ⟨?_, ?_, ?_⟩
  · intro t kfs p k rest hs ht
    exact ⟨interpolateKeyframes_before_first hs ht,
      fun d => interpolateValue_before_first hs ht⟩
  · intro t kfs p k rest hs hfirst hlast
    exact ⟨interpolateKeyframes_after_last hs hfirst hlast,
      fun d => interpolateValue_after_last hs hfirst hlast⟩
  · intro t kfs p d k rest hs hfirst hlastlt k1 k2 hfb
    cases kfs with
    | nil => exact List.noConfusion hs
    | cons a l =>
      have hIK : interpolateKeyframes t (a :: l) p = interpLoop t p (k :: rest) := by
        simp only [interpolateKeyframes, interpSorted]
        rw [hs]
        simp only [List.headD_cons]
        rw [if_neg (not_le.2 hfirst), if_neg (not_le.2 hlastlt)]
      have hIV : interpolateValue (a :: l) p t d = valLoop t p d (k :: rest) := by
        simp only [interpolateValue]
        rw [hs]
        simp only [List.headD_cons]
        rw [if_neg (not_le.2 hfirst), if_neg (not_le.2 hlastlt)]
      rw [hIK, hIV, interpLoop_findBracket, valLoop_findBracket, hfb]
      dsimp only
      refine ⟨?_, ?_, rfl⟩
      · rintro (h | h)
        · rw [h]
        · rw [h]
          cases k1.get p <;> rfl
      · intro v1 v2 h1 h2
        rw [h1, h2]

/-- Witness instantiating claim C7's between-brackets clause at concrete
keyframes with the channel missing on the second endpoint. -/
theorem C7_interpolation_laws_witness :
    interpolateKeyframes 1 [{ time := 0, x := some 4 }, { time := 4 }]
        Channel.x = none
      ∧ interpolateValue [{ time := 0, x := some 4 }, { time := 4 }]
          Channel.x 1 0 = 3 := by
  have h := C7_interpolation_laws.2.2 1
    [{ time := 0, x := some 4 }, { time := 4 }] Channel.x 0
    { time := 0, x := some 4 } [{ time := 4 }]
    (by
      simp only [sortTKfs, List.insertionSort, List.orderedInsert]
      rw [if_pos (show tkLE { time := 0, x := some 4 } { time := 4 } by norm_num [tkLE])])
    (by norm_num)
    (by
      rw [show (([{ time := 0, x := some 4 }, { time := 4 }]
          : List TransformKeyframe).getLastD default)
        = { time := 4 } from rfl]
      norm_num)
    { time := 0, x := some 4 } { time := 4 }
    (by
      rw [findBracket, if_pos]
      constructor <;> norm_num)
  refine ⟨h.1 (Or.inr rfl), ?_⟩
  rw [h.2.2]
  norm_num [TransformKeyframe.get]

/-- Claim C8: over a job's lifetime the written progress values are monotone
non-decreasing, with the orchestrator writing the fixed milestones
5, 10, 30, 50, 70, 85, 95 in order; success ends in COMPLETE with progress
forced to 100 and the output recorded; an orchestrator exception (after any
number `k ≤ 7` of milestone writes) ends in FAILED with the message recorded
and the progress left at its last checkpoint; and the terminal status appears
only as the final state of the trace (no transition leaves COMPLETE or
FAILED). -/
theorem C8_export_progress_trace :
    ∀ (out msg : String) (k : ℕ), k ≤ 7 →
      renderMilestones.filterMap JobWrite.progressValue
          = [5, 10, 30, 50, 70, 85, 95]
        ∧ (traceStates (workerTrace none out msg)).map JobRecord.status
            = [JobStatus.QUEUED] ++ List.replicate 8 JobStatus.RUNNING
                ++ [JobStatus.COMPLETE]
        ∧ List.Chain' (· ≤ ·)
            ((traceStates (workerTrace none out msg)).map JobRecord.progress)
        ∧ (workerTrace none out msg).foldl applyWrite initialJobRecord
            = { status := JobStatus.COMPLETE, progress := 100,
                outputPath := some out, errorMessage := none }
        ∧ (traceStates (workerTrace (some k) out msg)).map JobRecord.status
            = [JobStatus.QUEUED] ++ List.replicate (k + 1) JobStatus.RUNNING
                ++ [JobStatus.FAILED]
        ∧ List.Chain' (· ≤ ·)
            ((traceStates (workerTrace (some k) out msg)).map JobRecord.progress)
        ∧ (workerTrace (some k) out msg).foldl applyWrite initialJobRecord
            = { status := JobStatus.FAILED,
                progress := ((JobWrite.progressStatus 0 JobStatus.RUNNING
                    :: renderMilestones.take k).foldl applyWrite initialJobRecord).progress,
                outputPath := none, errorMessage := some msg } := by
  intro out msg k hk
  refine ⟨rfl, rfl, ?_, rfl, ?_⟩
  · rw [show (traceStates (workerTrace none out msg)).map JobRecord.progress
        = [0, 0, 5, 10, 30, 50, 70, 85, 95, 100] from rfl]
    norm_num [List.chain'_cons, List.chain'_singleton]
  · interval_cases k
    · exact ⟨rfl, by
        rw [show (traceStates (workerTrace (some 0) out msg)).map JobRecord.progress
            = [0, 0, 0] from rfl]
        norm_num [List.chain'_cons, List.chain'_singleton], rfl⟩
    · exact ⟨rfl, by
        rw [show (traceStates (workerTrace (some 1) out msg)).map JobRecord.progress
            = [0, 0, 5, 5] from rfl]
        norm_num [List.chain'_cons, List.chain'_singleton], rfl⟩
    · exact ⟨rfl, by
        rw [show (traceStates (workerTrace (some 2) out msg)).map JobRecord.progress
            = [0, 0, 5, 10, 10] from rfl]
        norm_num [List.chain'_cons, List.chain'_singleton], rfl⟩
    · exact ⟨rfl, by
        rw [show (traceStates (workerTrace (some 3) out msg)).map JobRecord.progress
            = [0, 0, 5, 10, 30, 30] from rfl]
        norm_num [List.chain'_cons, List.chain'_singleton], rfl⟩
    · exact ⟨rfl, by
        rw [show (traceStates (workerTrace (some 4) out msg)).map JobRecord.progress
            = [0, 0, 5, 10, 30, 50, 50] from rfl]
        norm_num [List.chain'_cons, List.chain'_singleton], rfl⟩
    · exact ⟨rfl, by
        rw [show (traceStates (workerTrace (some 5) out msg)).map JobRecord.progress
            = [0, 0, 5, 10, 30, 50, 70, 70] from rfl]
        norm_num [List.chain'_cons, List.chain'_singleton], rfl⟩
    · exact ⟨rfl, by
        rw [show (traceStates (workerTrace (some 6) out msg)).map JobRecord.progress
            = [0, 0, 5, 10, 30, 50, 70, 85, 85] from rfl]
        norm_num [List.chain'_cons, List.chain'_singleton], rfl⟩
    · exact ⟨rfl, by
        rw [show (traceStates (workerTrace (some 7) out msg)).map JobRecord.progress
            = [0, 0, 5, 10, 30, 50, 70, 85, 95, 95] from rfl]
        norm_num [List.chain'_cons, List.chain'_singleton], rfl⟩

/-- Witness instantiating claim C8 at a failure after three milestones. -/
theorem C8_export_progress_trace_witness :
    (traceStates (workerTrace (some 3) "out.mp4" "boom")).map JobRecord.status
      = [JobStatus.QUEUED] ++ List.replicate 4 JobStatus.RUNNING
          ++ [JobStatus.FAILED] :=
  (C8_export_progress_trace "out.mp4" "boom" 3 (by norm_num)).2.2.2.2.1

/-- Counterexample to claim C9: the source clamps the speed to `[0.5, 8]`
before chaining, so a segment speed of `0.25` — inside the claimed domain
`(0.01, 8]` — produces the chain `[0.5]` whose product is `0.5 ≠ 0.25`; the
claimed doubling branch never runs. -/
theorem C9_counterexample_quarter_speed :
    buildAtempoChain (1 / 4) = [1 / 2]
      ∧ (buildAtempoChain (1 / 4)).prod = 1 / 2
      ∧ ((1 / 2 : ℚ) ≠ 1 / 4)
      ∧ ((1 / 100 : ℚ) < 1 / 4 ∧ (1 / 4 : ℚ) ≤ 8) := by
  have h : buildAtempoChain (1 / 4) = [1 / 2] := by
    unfold buildAtempoChain
    rw [show max (1 / 2 : ℚ) (min 8 (1 / 4)) = 1 / 2 by norm_num]
    dsimp only
    rw [atempoHalve, dif_neg (by norm_num)]
    dsimp only
    rw [atempoRaise_skip (by norm_num)]
    dsimp only
    rw [show max (1 / 2 : ℚ) (min 2 (1 / 2)) = 1 / 2 by norm_num]
    rw [show round4 (1 / 2 : ℚ) = 1 / 2 by
      unfold round4
      rw [show ((1 : ℚ) / 2 * 10000 + 1 / 2) = (((5000 : ℤ) : ℚ) + 1 / 2 : ℚ) by norm_num]
      rw [floor_add_half]
      norm_num]
    rfl
  refine ⟨h, by rw [h]; simp, by norm_num, by norm_num, by norm_num⟩

/-- Claim C9 as amended: every atempo factor of any chain lies in the native
range `[0.5, 2]`; the speed is clamped to `[0.5, 8]` first (so speeds below
`0.5` are not reconstructed), and for clamp-invariant speeds whose remainder
after the halving loop is at most `2` and exact in four decimals, the
product of the chain equals the speed. -/
theorem C9_atempoChain_range_and_product :
    ∀ s : ℚ,
      (∀ f ∈ buildAtempoChain s, 1 / 2 ≤ f ∧ f ≤ 2)
        ∧ (1 / 2 ≤ s → s ≤ 8 → (atempoHalve s).2 ≤ 2 →
            round4 (atempoHalve s).2 = (atempoHalve s).2 →
            (buildAtempoChain s).prod = s) :=
  fun _ => ⟨fun _ hf => buildAtempoChain_factors hf,
    fun h1 h2 h3 h4 => buildAtempoChain_prod h1 h2 h3 h4⟩

/-- Witness instantiating claim C9 at speed `5` (chain `[2, 2, 1.25]`). -/
theorem C9_atempoChain_witness :
    (∀ f ∈ buildAtempoChain 5, 1 / 2 ≤ f ∧ f ≤ 2)
      ∧ (buildAtempoChain 5).prod = 5 :=
  ⟨(C9_atempoChain_range_and_product 5).1,
   (C9_atempoChain_range_and_product 5).2 (by norm_num) (by norm_num)
     (by rw [atempoHalve_five]; norm_num)
     (by rw [atempoHalve_five]; exact round4_five_quarters)⟩

/-- Claim C10: neither `evaluateSpeedRamp` nor `interpolateKeyframes` mutates
the caller's keyframe array: the defensive sort acts on the spread copy
(`[...keyframes].sort(...)`), so after the call the caller's array holds the
same elements in the same order, while the result is computed from the sorted
copy and agrees with the list-level functions. -/
theorem C10_keyframes_not_mutated :
    ∀ (t : ℚ) (a : JsArray SpeedKeyframe) (u : ℚ)
      (b : JsArray TransformKeyframe) (p : Channel),
      (evaluateSpeedRampMut t a).2 = a
        ∧ (evaluateSpeedRampMut t a).1 = evaluateSpeedRamp t a.contents
        ∧ (interpolateKeyframesMut u b p).2 = b
        ∧ (interpolateKeyframesMut u b p).1 = interpolateKeyframes u b.contents p := by
  intro t a u b p
  refine ⟨?_, ?_, ?_, ?_⟩
  · cases a with | mk l => cases l <;> rfl
  · cases a with | mk l => cases l <;> rfl
  · cases b with | mk l => cases l <;> rfl
  · cases b with | mk l => cases l <;> rfl

end VideoEditor
